import Mathlib

/-!
Verification of the court-address reconciliation core (`main.py`).

The program works on tabular records with plain string cells.  We embed a
string as a `List Char` (`Str`), and each Python helper as a Lean function
over `Str`.  Regex operations are embedded at the character level:

* `re.sub(r"[,.]", " ", s)`       → `pySubPunct`
* `str.strip()`                   → `pyStrip`
* `re.sub(r"\s+", " ", s)`        → `collapseWS`
* `str.lower()` (ASCII range)     → `toLowerL`
* `re.sub(r"\bP\b", r, s, flags=IGNORECASE)` → `subWB P r`

Fallible code (`is_valid_address` can raise `IndexError` on a whitespace-only
string) is embedded with `Except`.
-/

abbrev Str := List Char

/-- Python `\s` / `str.strip` whitespace class (ASCII and latin-1 part). -/
def pyIsSpace (c : Char) : Bool :=
  let n := c.toNat
  n = 32 || (9 ≤ n && n ≤ 13) || (28 ≤ n && n ≤ 31) || n = 133 || n = 160

/-- Python `\w` word-character class (ASCII part): letters, digits, underscore. -/
def isWordChar (c : Char) : Bool :=
  let n := c.toNat
  (48 ≤ n && n ≤ 57) || (65 ≤ n && n ≤ 90) || (97 ≤ n && n ≤ 122) || n = 95

/-- Python `str.isdigit` (ASCII part). -/
def isDigitC (c : Char) : Bool :=
  let n := c.toNat
  48 ≤ n && n ≤ 57

/-- Python `str.lower` on one character (ASCII range). -/
def lowerChar (c : Char) : Char :=
  let n := c.toNat
  if 65 ≤ n && n ≤ 90 then Char.ofNat (n + 32) else c

def toLowerL (s : Str) : Str := s.map lowerChar

/-- `re.sub(r"[,.]", " ", s)`: replace each comma / period by a space. -/
def pySubPunct (s : Str) : Str :=
  s.map (fun c => if c = ',' || c = '.' then ' ' else c)

/-- `str.strip()`: drop whitespace from both ends. -/
def pyStrip (s : Str) : Str :=
  ((s.dropWhile pyIsSpace).reverse.dropWhile pyIsSpace).reverse

/-- Scanner for `re.sub(r"\s+", " ", s)`; the flag records whether the scanner
is inside a whitespace run (whose first character already emitted `' '`). -/
def collapseGo : Bool → Str → Str
  | _, [] => []
  | inWS, c :: cs =>
    if pyIsSpace c then
      if inWS then collapseGo true cs else ' ' :: collapseGo true cs
    else c :: collapseGo false cs

/-- `re.sub(r"\s+", " ", s)`: each maximal whitespace run becomes one space. -/
def collapseWS (s : Str) : Str := collapseGo false s

/-- Case-insensitive literal match of `pat` at the head of `s`
(Python `re.IGNORECASE`); returns the remainder on success. -/
def matchCI : Str → Str → Option Str
  | [], s => some s
  | _ :: _, [] => none
  | p :: ps, c :: cs => if lowerChar p = lowerChar c then matchCI ps cs else none

/-- One scanning step of `re.sub(r"\bP\b", rep, s, flags=IGNORECASE)`,
with explicit fuel (the fuel is an upper bound on the scanned length, so the
function is structural; `subWB` instantiates it with `s.length`).
`prev` is the word-ness of the character before the current position
(`false` at the start of the string), which decides the `\b` boundaries. -/
def subWBF (pat rep : Str) : Nat → Bool → Str → Str
  | 0, _, s => s
  | _ + 1, _, [] => []
  | fuel + 1, prev, c :: cs =>
    match matchCI pat (c :: cs) with
    | some rest =>
      let bBefore := prev ≠ isWordChar (pat.headD ' ')
      let bAfter := isWordChar (pat.getLastD ' ') ≠
        (match rest with | [] => false | r :: _ => isWordChar r)
      if pat ≠ [] && bBefore && bAfter then
        rep ++ subWBF pat rep fuel (isWordChar (pat.getLastD ' ')) rest
      else c :: subWBF pat rep fuel (isWordChar c) cs
    | none => c :: subWBF pat rep fuel (isWordChar c) cs

/-- `re.sub(r"\b" + pat + r"\b", rep, s, flags=IGNORECASE)` for the whole-word
patterns of `format_address`. -/
def subWB (pat rep : Str) (prev : Bool) (s : Str) : Str :=
  subWBF pat rep s.length prev s

/-- The `replacements` table of `format_address`, in source order. -/
def replacements : List (Str × Str) := [
  ("SW".data, "Southwest".data),
  ("NE".data, "Northeast".data),
  ("NW".data, "Northwest".data),
  ("SE".data, "Southeast".data),
  ("N".data, "North".data),
  ("S".data, "South".data),
  ("E".data, "East".data),
  ("W".data, "West".data),
  ("St".data, "Street".data),
  ("Ave".data, "Avenue".data),
  ("Rd".data, "Road".data),
  ("Blvd".data, "Boulevard".data),
  ("Dr".data, "Drive".data),
  ("Ln".data, "Lane".data),
  ("Ct".data, "Court".data),
  ("Pl".data, "Place".data),
  ("Terr".data, "Terrace".data),
  ("Pkwy".data, "Parkway".data),
  ("Hwy".data, "Highway".data),
  ("Ste".data, "Suite".data),
  ("Fl".data, "Floor".data),
  ("Bldg".data, "Building".data),
  ("Apt".data, "Apartment".data),
  ("Unit".data, "Unit".data),
  ("#".data, "Unit".data)]

/-- The `for pattern, replacement in replacements.items()` loop. -/
def applyRepl (s : Str) : Str :=
  replacements.foldl (fun acc pr => subWB pr.1 pr.2 false acc) s

/-- `clean_and_normalize` (inner helper of `format_address`): punctuation to
spaces, strip, whole-word abbreviation expansion, whitespace collapse,
lowercase.  The empty string (Python falsy) is returned unchanged. -/
def clean_and_normalize (part : Str) : Str :=
  if part = [] then []
  else toLowerL (collapseWS (applyRepl (pyStrip (pySubPunct part))))

/-- `is_valid_address`: `False` for falsy / non-string input, else strips the
string and checks that it starts with a digit and is not a sentinel.
Indexing `normalized_address[0]` on an empty (whitespace-only) string raises
`IndexError`, which we embed as `Except.error`.  `none` models a non-string
cell (`None`/NaN). -/
inductive PyErr where
  | indexError : PyErr
deriving DecidableEq

def is_valid_address (address : Option Str) : Except PyErr Bool :=
  match address with
  | none => .ok false
  | some s =>
    if s = [] then .ok false
    else
      match pyStrip s with
      | [] => .error .indexError
      | c :: cs =>
        if ¬ isDigitC c then .ok false
        else if c :: cs = "N/A".data ∨ c :: cs = "Unknown".data ∨ c :: cs = "None".data
        then .ok false
        else .ok true

/-- `format_address(address1, address2, city, state, zipcode)`: fails closed to
`("", "")` when a required component is falsy; otherwise cleans every
component and joins the truthy ones with `", "`.  The same joined string is
returned twice (source line `return formatted_address, formatted_address`). -/
def format_address (address1 : Str) (address2 : Option Str)
    (city state zipcode : Str) : Str × Str :=
  if address1 = [] ∨ city = [] ∨ state = [] ∨ zipcode = [] then ([], [])
  else
    let a1 := clean_and_normalize address1
    let a2 : Option Str := match address2 with
      | none => none
      | some t => if t = [] then none else some (clean_and_normalize t)
    let c := clean_and_normalize city
    let st := clean_and_normalize state
    let z := clean_and_normalize zipcode
    let parts : List Str := ([some a1, a2, some c, some st, some z].filterMap id).filter
      (fun p => p ≠ [])
    let joined := (parts.intersperse ", ".data).flatten
    (joined, joined)

/-- A row of the internal (federal) table as `compare_data` receives it:
the stored columns plus the `Key` and `Desc` columns added by
`clean_and_merge_data`. -/
structure FedRow where
  courtid : Str
  address1 : Str
  city : Str
  state : Str
  zipcode : Str
  filingcity : Str
  phone : Str
  Key : Str
  Desc : Str
deriving DecidableEq

/-- A row of the external (government) table after cleaning: the fetched
columns plus the `Key` column.  `BuildingName` is `none` when the cell is
missing (`row.get('BuildingName', None)`). -/
structure GovRow where
  BuildingAddress : Str
  BuildingName : Option Str
  BuildingCity : Str
  BuildingState : Str
  BuildingZip : Str
  CourtType : Str
  Phone : Str
  Key : Str
deriving DecidableEq

/-- `gov_data['Full_Address']`: primary address, `BuildingName` excluded,
zip truncated to its first five characters. -/
def govFullAddress (g : GovRow) : Str :=
  (format_address g.BuildingAddress none g.BuildingCity g.BuildingState
    (g.BuildingZip.take 5)).1

/-- `gov_data['Full_Address_With_BuildingName']`: full address including
`BuildingName`, zip truncated to its first five characters. -/
def govFullAddressWithName (g : GovRow) : Str :=
  (format_address g.BuildingAddress g.BuildingName g.BuildingCity g.BuildingState
    (g.BuildingZip.take 5)).2

/-- `federal_data['Full_Address']`: primary address with no `address2`. -/
def fedFullAddress (f : FedRow) : Str :=
  (format_address f.address1 none f.city f.state f.zipcode).1

/-- The four verdict columns `compare_data` writes on a federal row. -/
structure Verdict where
  Matched_in : Str
  Mismatch_Address : Str
  Address_to_update : Str
  Phone_to_update : Str
deriving DecidableEq

/-- The body of the `compare_data` loop for one federal row: filter the
government rows by `Key`, try `bankruptcy court` rows first (first match in
input order), else `district court` rows, else keep the initialized
`Not Found` defaults.  `is_valid_address` may raise. -/
def compareRow (f : FedRow) (gov : List GovRow) : Except PyErr Verdict :=
  let fedAddr := fedFullAddress f
  let govMatches := gov.filter (fun g => g.Key = f.Key)
  let bank := govMatches.filter (fun g => toLowerL g.CourtType = "bankruptcy court".data)
  match bank with
  | g :: _ =>
    match is_valid_address (some g.BuildingAddress) with
    | .error e => .error e
    | .ok valid =>
      if valid ∧ fedAddr = govFullAddress g then
        .ok ⟨"Gov (Bankruptcy Court)".data, "No mismatch".data, "No update needed".data, []⟩
      else
        .ok ⟨"Gov (Bankruptcy Court)".data,
          "Fed: ".data ++ fedAddr ++ " | Gov: ".data ++ govFullAddress g,
          govFullAddressWithName g, g.Phone⟩
  | [] =>
    let district := govMatches.filter (fun g => toLowerL g.CourtType = "district court".data)
    match district with
    | g :: _ =>
      match is_valid_address (some g.BuildingAddress) with
      | .error e => .error e
      | .ok valid =>
        if valid ∧ fedAddr = govFullAddress g then
          .ok ⟨"Gov (District Court)".data, "No mismatch".data, "No update needed".data, []⟩
        else
          .ok ⟨"Gov (District Court)".data,
            "Fed: ".data ++ fedAddr ++ " | Gov: ".data ++ govFullAddress g,
            govFullAddressWithName g, g.Phone⟩
    | [] =>
      .ok ⟨"Not Found".data, "Manual Research".data, "Human review needed".data, []⟩

/-- A federal row after `compare_data`: every original column plus the five
derived columns. -/
structure FedResult where
  courtid : Str
  address1 : Str
  city : Str
  state : Str
  zipcode : Str
  filingcity : Str
  phone : Str
  Key : Str
  Desc : Str
  Full_Address : Str
  Matched_in : Str
  Mismatch_Address : Str
  Address_to_update : Str
  Phone_to_update : Str
deriving DecidableEq

def mkFedResult (f : FedRow) (v : Verdict) : FedResult :=
  ⟨f.courtid, f.address1, f.city, f.state, f.zipcode, f.filingcity, f.phone,
    f.Key, f.Desc, fedFullAddress f,
    v.Matched_in, v.Mismatch_Address, v.Address_to_update, v.Phone_to_update⟩

/-- `compare_data`: annotate every federal row with its verdict.  An exception
raised inside the loop aborts the pass. -/
def compare_data (fed : List FedRow) (gov : List GovRow) :
    Except PyErr (List FedResult) :=
  match fed with
  | [] => .ok []
  | f :: fs =>
    match compareRow f gov with
    | .error e => .error e
    | .ok v =>
      match compare_data fs gov with
      | .error e => .error e
      | .ok rs => .ok (mkFedResult f v :: rs)

/-- Python `"s".split(',')`. -/
def splitComma : Str → List Str
  | [] => [[]]
  | c :: cs =>
    if c = ',' then [] :: splitComma cs
    else
      match splitComma cs with
      | p :: ps => (c :: p) :: ps
      | [] => [[c]]

/-- A row needing an update, in the source's sense: its `Mismatch_Address` is
neither `'No mismatch'` nor `'Manual Research'`. -/
def needsUpdate (r : FedResult) : Bool :=
  ¬ (r.Mismatch_Address = "No mismatch".data ∨ r.Mismatch_Address = "Manual Research".data)

/-- The field-level update payload `update_discrepancies` sends to the
database for one row. -/
structure UpdateInstr where
  courtid : Str
  address1 : Str
  address2 : Option Str
  filingcity : Str
  city : Str
  state : Str
  zipcode : Str
  phone : Str
deriving DecidableEq

/-- The body of the `update_discrepancies` loop for one discrepant row:
split `Address_to_update` on commas, strip each part, and build the payload
when there are exactly 4 or at least 5 parts; `none` models the
`continue` that skips and reports the row. -/
def planRow (r : FedResult) : Option UpdateInstr :=
  let parts := (splitComma r.Address_to_update).map pyStrip
  if parts.length = 4 then
    some ⟨r.courtid, parts.getD 0 [], none, parts.getD 1 [], parts.getD 1 [],
      parts.getD 2 [], parts.getD 3 [], r.Phone_to_update⟩
  else if 5 ≤ parts.length then
    some ⟨r.courtid, parts.getD 0 [], some (parts.getD 1 []), parts.getD 2 [],
      parts.getD 2 [], parts.getD 3 [], parts.getD 4 [], r.Phone_to_update⟩
  else none

/-- `update_discrepancies` as a pure planner: the ordered update payloads it
executes, and the `courtid`s of the rows it skips and reports. -/
def update_discrepancies (rows : List FedResult) : List UpdateInstr × List Str :=
  let discrepancies := rows.filter needsUpdate
  (discrepancies.filterMap planRow,
    (discrepancies.filter (fun r => planRow r = none)).map (fun r => r.courtid))

/-- The original columns of an annotated federal row. -/
def origOf (r : FedResult) : FedRow :=
  ⟨r.courtid, r.address1, r.city, r.state, r.zipcode, r.filingcity, r.phone,
    r.Key, r.Desc⟩

/-- C3, counterexample: with a non-empty `address2` supplied, the first
returned string of `format_address` contains the secondary component and is
identical to the second returned string, so the primary does not exclude it. -/
theorem C3_counterexample :
    (format_address "1 Main St".data (some "Suite 2".data) "Springfield".data
        "IL".data "62701".data).1
      = "1 main street, suite 2, springfield, il, 62701".data
    ∧ (format_address "1 Main St".data (some "Suite 2".data) "Springfield".data
        "IL".data "62701".data).1
      = (format_address "1 Main St".data (some "Suite 2".data) "Springfield".data
        "IL".data "62701".data).2 := by
  constructor
  · decide
  · rfl

/-- C3, amended: `format_address` returns the same joined string in both
components; in particular a supplied `address2` appears in both.  The
comparison address excludes `address2` only because the comparison call sites
pass `None`. -/
theorem format_address_components_equal (address1 : Str) (address2 : Option Str)
    (city state zipcode : Str) :
    (format_address address1 address2 city state zipcode).1
      = (format_address address1 address2 city state zipcode).2 := by
  unfold format_address
  split
  · rfl
  · rfl

/-- C2: `is_valid_address` on the whitespace-only string `" "` raises
`IndexError` (`normalized_address[0]` on the empty stripped string) instead of
returning `False`, and a matching pass that reaches such a value aborts
instead of completing the batch. -/
theorem is_valid_address_whitespace_raises :
    is_valid_address (some " ".data) = .error .indexError
    ∧ compare_data
        [⟨"1".data, "9 A".data, "a".data, "b".data, "1".data, "a".data, [],
          "a_b".data, "Main".data⟩]
        [⟨" ".data, none, "a".data, "b".data, "1".data,
          "Bankruptcy Court".data, [], "a_b".data⟩]
      = .error .indexError := by
  constructor
  · rfl
  · rfl

/-- C6: an internal record whose key matches no external record gets the
initialized verdict `Not Found` / `Manual Research` / `Human review needed` /
empty phone, and no error is raised. -/
theorem compareRow_no_candidate (f : FedRow) (gov : List GovRow)
    (h : ∀ g ∈ gov, g.Key ≠ f.Key) :
    compareRow f gov
      = .ok ⟨"Not Found".data, "Manual Research".data,
          "Human review needed".data, []⟩ := by
  have hm : gov.filter (fun g => g.Key = f.Key) = [] := by
    rw [List.filter_eq_nil_iff]
    intro g hg
    simpa using h g hg
  unfold compareRow
  rw [hm]
  rfl

/-- C6, witness. -/
theorem compareRow_no_candidate_witness :
    (∀ g ∈ ([] : List GovRow),
      g.Key ≠ (⟨"1".data, "9 A".data, "a".data, "b".data, "1".data, "a".data,
        [], "a_b".data, "Main".data⟩ : FedRow).Key)
    ∧ compareRow
        ⟨"1".data, "9 A".data, "a".data, "b".data, "1".data, "a".data, [],
          "a_b".data, "Main".data⟩ []
      = .ok ⟨"Not Found".data, "Manual Research".data,
          "Human review needed".data, []⟩ :=
  ⟨fun g hg => absurd hg (List.not_mem_nil g),
    compareRow_no_candidate _ [] (fun g hg => absurd hg (List.not_mem_nil g))⟩

def c1fed : FedRow :=
  ⟨"1".data, "9".data, "a".data, "b".data, "1".data, "a".data, [],
    "a_b".data, "Main".data⟩

def c1gov : GovRow :=
  ⟨[], none, "a".data, "b".data, "1".data, "Bankruptcy Court".data,
    "555".data, "a_b".data⟩

def c1verdict : Verdict :=
  ⟨"Gov (Bankruptcy Court)".data, "Fed: 9, a, b, 1 | Gov: ".data, [],
    "555".data⟩

/-- C1, counterexample: a matched bankruptcy-court candidate with an empty
`BuildingAddress` produces a verdict whose mismatch status is `Mismatch`
(neither `'No mismatch'` nor `'Manual Research'`) while `Address_to_update`
is the empty string. -/
theorem C1_counterexample :
    compareRow c1fed [c1gov] = .ok c1verdict
    ∧ c1verdict.Mismatch_Address ≠ "No mismatch".data
    ∧ c1verdict.Mismatch_Address ≠ "Manual Research".data
    ∧ c1verdict.Address_to_update = [] :=
  ⟨by rfl, by decide, by decide, rfl⟩

/-- C1, amended: a `Mismatch` verdict carries as `Address_to_update` the
matched candidate's composed full-with-name address (and that candidate's
phone); that string may be empty when the candidate's address components are
missing. -/
theorem mismatch_address_to_update (f : FedRow) (gov : List GovRow) (v : Verdict)
    (h : compareRow f gov = .ok v)
    (hm : v.Mismatch_Address ≠ "No mismatch".data)
    (hm2 : v.Mismatch_Address ≠ "Manual Research".data) :
    ∃ g ∈ gov, g.Key = f.Key ∧ v.Address_to_update = govFullAddressWithName g
      ∧ v.Phone_to_update = g.Phone := by
  unfold compareRow at h
  dsimp only at h
  split at h
  case _ g tail heq =>
    have hgmem : g ∈ gov.filter (fun g => decide (g.Key = f.Key)) := by
      have : g ∈ (gov.filter (fun g => decide (g.Key = f.Key))).filter
          (fun g => decide (toLowerL g.CourtType = "bankruptcy court".data)) := by
        rw [heq]; exact List.mem_cons_self g tail
      exact List.mem_of_mem_filter this
    refine ⟨g, (List.mem_filter.mp hgmem).1, of_decide_eq_true (List.mem_filter.mp hgmem).2, ?_⟩
    split at h
    · exact absurd h (by simp)
    case _ valid =>
      split at h
      · exact absurd (congrArg Verdict.Mismatch_Address (Except.ok.inj h).symm) hm
      · have := (Except.ok.inj h).symm
        subst this
        exact ⟨rfl, rfl⟩
  case _ heq =>
    split at h
    case _ g tail heq2 =>
      have hgmem : g ∈ gov.filter (fun g => decide (g.Key = f.Key)) := by
        have : g ∈ (gov.filter (fun g => decide (g.Key = f.Key))).filter
            (fun g => decide (toLowerL g.CourtType = "district court".data)) := by
          rw [heq2]; exact List.mem_cons_self g tail
        exact List.mem_of_mem_filter this
      refine ⟨g, (List.mem_filter.mp hgmem).1, of_decide_eq_true (List.mem_filter.mp hgmem).2, ?_⟩
      split at h
      · exact absurd h (by simp)
      case _ valid =>
        split at h
        · exact absurd (congrArg Verdict.Mismatch_Address (Except.ok.inj h).symm) hm
        · have := (Except.ok.inj h).symm
          subst this
          exact ⟨rfl, rfl⟩
    case _ =>
      exact absurd (congrArg Verdict.Mismatch_Address (Except.ok.inj h).symm) hm2

def w1gov : GovRow :=
  ⟨"8".data, none, "a".data, "b".data, "1".data, "Bankruptcy Court".data,
    "555".data, "a_b".data⟩

def w1verdict : Verdict :=
  ⟨"Gov (Bankruptcy Court)".data, "Fed: 9, a, b, 1 | Gov: 8, a, b, 1".data,
    "8, a, b, 1".data, "555".data⟩

/-- C1, witness for the amended statement. -/
theorem mismatch_address_to_update_witness :
    (compareRow c1fed [w1gov] = .ok w1verdict
      ∧ w1verdict.Mismatch_Address ≠ "No mismatch".data
      ∧ w1verdict.Mismatch_Address ≠ "Manual Research".data)
    ∧ ∃ g ∈ [w1gov], g.Key = c1fed.Key
        ∧ w1verdict.Address_to_update = govFullAddressWithName g
        ∧ w1verdict.Phone_to_update = g.Phone :=
  ⟨⟨by rfl, by decide, by decide⟩,
    mismatch_address_to_update c1fed [w1gov] w1verdict (by rfl) (by decide)
      (by decide)⟩

/-- C9: the matching pass only adds the derived columns; projecting the
original columns out of its result gives back the input table, row for row. -/
theorem compare_data_frame (fed : List FedRow) (gov : List GovRow)
    (res : List FedResult) (h : compare_data fed gov = .ok res) :
    res.map origOf = fed := by
  induction fed generalizing res with
  | nil =>
    unfold compare_data at h
    cases h
    rfl
  | cons f fs ih =>
    unfold compare_data at h
    split at h
    · exact absurd h (by simp)
    · split at h
      · exact absurd h (by simp)
      case _ rs hrs =>
        cases h
        simp only [List.map_cons, List.cons.injEq]
        exact ⟨rfl, ih rs hrs⟩

/-- C9, witness. -/
theorem compare_data_frame_witness :
    compare_data [c1fed] []
      = .ok [mkFedResult c1fed
          ⟨"Not Found".data, "Manual Research".data,
            "Human review needed".data, []⟩]
    ∧ [mkFedResult c1fed
        ⟨"Not Found".data, "Manual Research".data,
          "Human review needed".data, []⟩].map origOf = [c1fed] :=
  ⟨by rfl,
    compare_data_frame [c1fed] [] _ (by rfl)⟩

/-- `[part.strip() for part in row['Address_to_update'].split(',')]`. -/
def updateParts (r : FedResult) : List Str :=
  (splitComma r.Address_to_update).map pyStrip

/-- Decomposition of the planner run around one discrepant row. -/
theorem update_discrepancies_append_cons (r : FedResult)
    (hq : needsUpdate r = true) (pre post : List FedResult) :
    update_discrepancies (pre ++ r :: post)
      = ((update_discrepancies pre).1 ++ (planRow r).toList
          ++ (update_discrepancies post).1,
        (update_discrepancies pre).2
          ++ (if planRow r = none then [r.courtid] else [])
          ++ (update_discrepancies post).2) := by
  cases hp : planRow r with
  | none =>
    simp [update_discrepancies, List.filter_append, List.filter_cons, hq, hp,
      List.filterMap_append, List.filterMap_cons]
  | some i =>
    simp [update_discrepancies, List.filter_append, List.filter_cons, hq, hp,
      List.filterMap_append, List.filterMap_cons]

/-- C5: for a row the planner selects, splitting `Address_to_update` on
commas and stripping each part yields: with exactly 4 parts a payload with
`address2` absent; with 5 or more parts `address2 = part[1]` and the other
fields shifted by one; with fewer than 4 parts no payload — the row is
skipped, reported by `courtid`, and the rest of the batch is still
processed.  A payload is never built from fewer components. -/
theorem update_planner_component_gate (r : FedResult)
    (hq : needsUpdate r = true) :
    ((updateParts r).length = 4 →
      planRow r = some ⟨r.courtid, (updateParts r).getD 0 [], none,
        (updateParts r).getD 1 [], (updateParts r).getD 1 [],
        (updateParts r).getD 2 [], (updateParts r).getD 3 [],
        r.Phone_to_update⟩
      ∧ ∀ pre post, update_discrepancies (pre ++ r :: post)
          = ((update_discrepancies pre).1
              ++ ⟨r.courtid, (updateParts r).getD 0 [], none,
                  (updateParts r).getD 1 [], (updateParts r).getD 1 [],
                  (updateParts r).getD 2 [], (updateParts r).getD 3 [],
                  r.Phone_to_update⟩ :: (update_discrepancies post).1,
            (update_discrepancies pre).2 ++ (update_discrepancies post).2))
    ∧ (5 ≤ (updateParts r).length →
      planRow r = some ⟨r.courtid, (updateParts r).getD 0 [],
        some ((updateParts r).getD 1 []), (updateParts r).getD 2 [],
        (updateParts r).getD 2 [], (updateParts r).getD 3 [],
        (updateParts r).getD 4 [], r.Phone_to_update⟩
      ∧ ∀ pre post, update_discrepancies (pre ++ r :: post)
          = ((update_discrepancies pre).1
              ++ ⟨r.courtid, (updateParts r).getD 0 [],
                  some ((updateParts r).getD 1 []), (updateParts r).getD 2 [],
                  (updateParts r).getD 2 [], (updateParts r).getD 3 [],
                  (updateParts r).getD 4 [],
                  r.Phone_to_update⟩ :: (update_discrepancies post).1,
            (update_discrepancies pre).2 ++ (update_discrepancies post).2))
    ∧ ((updateParts r).length < 4 →
      planRow r = none
      ∧ ∀ pre post, update_discrepancies (pre ++ r :: post)
          = ((update_discrepancies pre).1 ++ (update_discrepancies post).1,
            (update_discrepancies pre).2
              ++ r.courtid :: (update_discrepancies post).2)) := by
  refine ⟨fun h4 => ?_, fun h5 => ?_, fun hlt => ?_⟩
  · have hp : planRow r = some ⟨r.courtid, (updateParts r).getD 0 [], none,
        (updateParts r).getD 1 [], (updateParts r).getD 1 [],
        (updateParts r).getD 2 [], (updateParts r).getD 3 [],
        r.Phone_to_update⟩ := by
      unfold planRow
      rw [show (splitComma r.Address_to_update).map pyStrip = updateParts r from rfl]
      simp [h4]
    refine ⟨hp, fun pre post => ?_⟩
    rw [update_discrepancies_append_cons r hq pre post, hp]
    simp
  · have hne : ¬ (updateParts r).length = 4 := by omega
    have hp : planRow r = some ⟨r.courtid, (updateParts r).getD 0 [],
        some ((updateParts r).getD 1 []), (updateParts r).getD 2 [],
        (updateParts r).getD 2 [], (updateParts r).getD 3 [],
        (updateParts r).getD 4 [], r.Phone_to_update⟩ := by
      unfold planRow
      rw [show (splitComma r.Address_to_update).map pyStrip = updateParts r from rfl]
      simp [hne, h5]
    refine ⟨hp, fun pre post => ?_⟩
    rw [update_discrepancies_append_cons r hq pre post, hp]
    simp
  · have hne : ¬ (updateParts r).length = 4 := by omega
    have hne5 : ¬ 5 ≤ (updateParts r).length := by omega
    have hp : planRow r = none := by
      unfold planRow
      rw [show (splitComma r.Address_to_update).map pyStrip = updateParts r from rfl]
      simp [hne, hne5]
    refine ⟨hp, fun pre post => ?_⟩
    rw [update_discrepancies_append_cons r hq pre post, hp]
    simp

def w5row4 : FedResult :=
  ⟨"7".data, [], [], [], [], [], [], [], [], [], [], "x".data,
    "1 Main St, Springfield, IL, 62701".data, "ph".data⟩

/-- C5, witness: the spec's 4-part example, run through the planner. -/
theorem update_planner_component_gate_witness :
    needsUpdate w5row4 = true
    ∧ (updateParts w5row4).length = 4
    ∧ planRow w5row4 = some ⟨"7".data, "1 Main St".data, none,
        "Springfield".data, "Springfield".data, "IL".data, "62701".data,
        "ph".data⟩
    ∧ update_discrepancies [w5row4]
      = ([⟨"7".data, "1 Main St".data, none, "Springfield".data,
          "Springfield".data, "IL".data, "62701".data, "ph".data⟩], []) := by
  have h := (update_planner_component_gate w5row4 (by decide)).1 (by decide)
  refine ⟨by decide, by decide, ?_, ?_⟩
  · rw [h.1]; decide
  · have h2 := h.2 [] []
    simp only [List.nil_append] at h2
    rw [h2]
    decide

/-- The verdict computed from one selected government candidate (the shared
shape of the two court-type branches of the `compare_data` loop). -/
def candVerdict (tag : Str) (fedAddr : Str) (g : GovRow) : Except PyErr Verdict :=
  match is_valid_address (some g.BuildingAddress) with
  | .error e => .error e
  | .ok valid =>
    if valid ∧ fedAddr = govFullAddress g then
      .ok ⟨tag, "No mismatch".data, "No update needed".data, []⟩
    else
      .ok ⟨tag, "Fed: ".data ++ fedAddr ++ " | Gov: ".data ++ govFullAddress g,
        govFullAddressWithName g, g.Phone⟩

/-- The bankruptcy-court candidate subset for one federal row, in input order. -/
def bankCands (f : FedRow) (gov : List GovRow) : List GovRow :=
  (gov.filter (fun g => g.Key = f.Key)).filter
    (fun g => toLowerL g.CourtType = "bankruptcy court".data)

/-- The district-court candidate subset for one federal row, in input order. -/
def distCands (f : FedRow) (gov : List GovRow) : List GovRow :=
  (gov.filter (fun g => g.Key = f.Key)).filter
    (fun g => toLowerL g.CourtType = "district court".data)

/-- The government table with this row's district-court candidates removed. -/
def govNoDistrict (f : FedRow) (gov : List GovRow) : List GovRow :=
  gov.filter
    (fun g => ¬ (g.Key = f.Key ∧ toLowerL g.CourtType = "district court".data))

theorem compareRow_of_bankCands (f : FedRow) (gov : List GovRow)
    (g0 : GovRow) (tl : List GovRow) (hb : bankCands f gov = g0 :: tl) :
    compareRow f gov
      = candVerdict "Gov (Bankruptcy Court)".data (fedFullAddress f) g0 := by
  unfold bankCands at hb
  unfold compareRow
  dsimp only
  rw [hb]
  rfl

/-- C4: when a federal row has both bankruptcy-court and district-court
candidates, the verdict comes from the first bankruptcy-court candidate in
input order, its `Matched_in` names the bankruptcy court, and removing every
district-court candidate for that row leaves the verdict unchanged — the
district candidates are never consulted. -/
theorem bankruptcy_precedence (f : FedRow) (gov : List GovRow)
    (g0 : GovRow) (tl : List GovRow) (hb : bankCands f gov = g0 :: tl)
    (_hd : distCands f gov ≠ []) :
    compareRow f gov
      = candVerdict "Gov (Bankruptcy Court)".data (fedFullAddress f) g0
    ∧ (∀ v, compareRow f gov = .ok v →
        v.Matched_in = "Gov (Bankruptcy Court)".data)
    ∧ compareRow f gov = compareRow f (govNoDistrict f gov) := by
  have h1 := compareRow_of_bankCands f gov g0 tl hb
  refine ⟨h1, ?_, ?_⟩
  · intro v hv
    rw [h1] at hv
    unfold candVerdict at hv
    split at hv
    · exact absurd hv (by simp)
    · split at hv
      · cases hv; rfl
      · cases hv; rfl
  · have hb' : bankCands f (govNoDistrict f gov) = g0 :: tl := by
      unfold bankCands at hb ⊢
      unfold govNoDistrict
      rw [List.filter_filter] at hb ⊢
      rw [List.filter_filter]
      rw [← hb]
      apply List.filter_congr
      intro g _
      cases hkey : decide (g.Key = f.Key) with
      | false => simp [hkey]
      | true =>
        cases hbank : decide (toLowerL g.CourtType = "bankruptcy court".data) with
        | false => simp [hkey, hbank]
        | true =>
          have : toLowerL g.CourtType = "bankruptcy court".data :=
            of_decide_eq_true hbank
          simp [hkey, hbank, this]
    rw [h1, compareRow_of_bankCands f (govNoDistrict f gov) g0 tl hb']

def w4fed : FedRow :=
  ⟨"2".data, "9".data, "a".data, "b".data, "1".data, "a".data, [],
    "a_b".data, "Main".data⟩

def w4bank : GovRow :=
  ⟨"8".data, none, "a".data, "b".data, "1".data, "Bankruptcy Court".data,
    "555".data, "a_b".data⟩

def w4dist : GovRow :=
  ⟨"9".data, none, "a".data, "b".data, "1".data, "District Court".data,
    "777".data, "a_b".data⟩

/-- C4, witness: with a district candidate listed first, the verdict still
comes from the bankruptcy candidate. -/
theorem bankruptcy_precedence_witness :
    bankCands w4fed [w4dist, w4bank] = [w4bank]
    ∧ distCands w4fed [w4dist, w4bank] ≠ []
    ∧ compareRow w4fed [w4dist, w4bank]
      = candVerdict "Gov (Bankruptcy Court)".data (fedFullAddress w4fed) w4bank
    ∧ compareRow w4fed [w4dist, w4bank]
      = compareRow w4fed (govNoDistrict w4fed [w4dist, w4bank]) := by
  have h := bankruptcy_precedence w4fed [w4dist, w4bank] w4bank [] (by decide)
    (by decide)
  exact ⟨by decide, by decide, h.1, h.2.2⟩

/-- Everything `compare_data` reads from a government row: its key, lowered
court type, raw building address, the two composed addresses, and the phone. -/
def govView (g : GovRow) : Str × Str × Str × Str × Str × Str :=
  (g.Key, toLowerL g.CourtType, g.BuildingAddress, govFullAddress g,
    govFullAddressWithName g, g.Phone)

theorem map_view_filter {p : GovRow → Bool}
    (hp : ∀ a b, govView a = govView b → p a = p b) :
    ∀ {l l' : List GovRow}, l.map govView = l'.map govView →
      (l.filter p).map govView = (l'.filter p).map govView := by
  intro l
  induction l with
  | nil =>
    intro l' h
    cases l' with
    | nil => rfl
    | cons b t => simp at h
  | cons a t ih =>
    intro l' h
    cases l' with
    | nil => simp at h
    | cons b t' =>
      simp only [List.map_cons, List.cons.injEq] at h
      obtain ⟨hab, ht⟩ := h
      have hpab := hp a b hab
      by_cases hpa : p a = true
      · rw [List.filter_cons_of_pos hpa, List.filter_cons_of_pos (hpab ▸ hpa)]
        simp only [List.map_cons, List.cons.injEq]
        exact ⟨hab, ih ht⟩
      · rw [List.filter_cons_of_neg hpa, List.filter_cons_of_neg (hpab ▸ hpa)]
        exact ih ht

theorem candBranch_congr_view (tag fedAddr : Str) {a b : GovRow}
    (hab : govView a = govView b) :
    candVerdict tag fedAddr a = candVerdict tag fedAddr b := by
  unfold govView at hab
  simp only [Prod.mk.injEq] at hab
  obtain ⟨eKey, eCT, eBA, eFA, eFW, ePh⟩ := hab
  unfold candVerdict
  rw [eBA, eFA, eFW, ePh]

/-- `compare_data` reads a government row only through `govView`: two tables
with the same view sequence give every federal row the same verdict. -/
theorem compareRow_congr_view (f : FedRow) (gov gov' : List GovRow)
    (h : gov.map govView = gov'.map govView) :
    compareRow f gov = compareRow f gov' := by
  have hkey : ∀ a b : GovRow, govView a = govView b →
      (decide (a.Key = f.Key)) = (decide (b.Key = f.Key)) := by
    intro a b hab
    have : a.Key = b.Key := congrArg (fun v => v.1) hab
    rw [this]
  have hbankp : ∀ a b : GovRow, govView a = govView b →
      (decide (toLowerL a.CourtType = "bankruptcy court".data))
        = (decide (toLowerL b.CourtType = "bankruptcy court".data)) := by
    intro a b hab
    have : toLowerL a.CourtType = toLowerL b.CourtType :=
      congrArg (fun v => v.2.1) hab
    rw [this]
  have hdistp : ∀ a b : GovRow, govView a = govView b →
      (decide (toLowerL a.CourtType = "district court".data))
        = (decide (toLowerL b.CourtType = "district court".data)) := by
    intro a b hab
    have : toLowerL a.CourtType = toLowerL b.CourtType :=
      congrArg (fun v => v.2.1) hab
    rw [this]
  have h1 := map_view_filter hkey h
  have h2 := map_view_filter hbankp h1
  have h3 := map_view_filter hdistp h1
  unfold compareRow
  dsimp only
  revert h2
  cases e2 : (gov.filter (fun g => decide (g.Key = f.Key))).filter
      (fun g => decide (toLowerL g.CourtType = "bankruptcy court".data)) with
  | cons a ta =>
    cases e2' : (gov'.filter (fun g => decide (g.Key = f.Key))).filter
        (fun g => decide (toLowerL g.CourtType = "bankruptcy court".data)) with
    | cons b tb =>
      intro h2
      simp only [List.map_cons, List.cons.injEq] at h2
      exact candBranch_congr_view "Gov (Bankruptcy Court)".data (fedFullAddress f) h2.1
    | nil => intro h2; simp at h2
  | nil =>
    cases e2' : (gov'.filter (fun g => decide (g.Key = f.Key))).filter
        (fun g => decide (toLowerL g.CourtType = "bankruptcy court".data)) with
    | cons b tb => intro h2; simp at h2
    | nil =>
      intro _
      revert h3
      cases e3 : (gov.filter (fun g => decide (g.Key = f.Key))).filter
          (fun g => decide (toLowerL g.CourtType = "district court".data)) with
      | cons a ta =>
        cases e3' : (gov'.filter (fun g => decide (g.Key = f.Key))).filter
            (fun g => decide (toLowerL g.CourtType = "district court".data)) with
        | cons b tb =>
          intro h3
          simp only [List.map_cons, List.cons.injEq] at h3
          exact candBranch_congr_view "Gov (District Court)".data (fedFullAddress f) h3.1
        | nil => intro h3; simp at h3
      | nil =>
        cases e3' : (gov'.filter (fun g => decide (g.Key = f.Key))).filter
            (fun g => decide (toLowerL g.CourtType = "district court".data)) with
        | cons b tb => intro h3; simp at h3
        | nil => intro _; rfl

/-- C10: `BuildingZip` is truncated to its first five characters before
normalization, so two zips agreeing on those five characters (for example
`"62701-1234"` and `"62701"`) give the same composed addresses and the same
verdict against any internal record, in any table position. -/
theorem zip_truncation (g : GovRow) (z1 z2 : Str)
    (hz : z1.take 5 = z2.take 5) :
    govFullAddress {g with BuildingZip := z1}
      = govFullAddress {g with BuildingZip := z2}
    ∧ govFullAddressWithName {g with BuildingZip := z1}
      = govFullAddressWithName {g with BuildingZip := z2}
    ∧ ∀ (f : FedRow) (pre post : List GovRow),
        compareRow f (pre ++ {g with BuildingZip := z1} :: post)
          = compareRow f (pre ++ {g with BuildingZip := z2} :: post) := by
  have hFA : govFullAddress {g with BuildingZip := z1}
      = govFullAddress {g with BuildingZip := z2} := by
    unfold govFullAddress
    dsimp only
    rw [hz]
  have hFW : govFullAddressWithName {g with BuildingZip := z1}
      = govFullAddressWithName {g with BuildingZip := z2} := by
    unfold govFullAddressWithName
    dsimp only
    rw [hz]
  have hview : govView {g with BuildingZip := z1}
      = govView {g with BuildingZip := z2} := by
    unfold govView
    rw [hFA, hFW]
  refine ⟨hFA, hFW, fun f pre post => ?_⟩
  apply compareRow_congr_view
  simp [hview]

def w10gov : GovRow :=
  ⟨"8".data, none, "a".data, "b".data, [], "District Court".data,
    "555".data, "a_b".data⟩

/-- C10, witness. -/
theorem zip_truncation_witness :
    ("62701-1234".data.take 5 = "62701".data.take 5)
    ∧ govFullAddress {w10gov with BuildingZip := "62701-1234".data}
      = govFullAddress {w10gov with BuildingZip := "62701".data}
    ∧ govFullAddressWithName {w10gov with BuildingZip := "62701-1234".data}
      = govFullAddressWithName {w10gov with BuildingZip := "62701".data}
    ∧ compareRow w4fed ([] ++ {w10gov with BuildingZip := "62701-1234".data} :: [])
      = compareRow w4fed ([] ++ {w10gov with BuildingZip := "62701".data} :: []) := by
  have h := zip_truncation w10gov "62701-1234".data "62701".data (by decide)
  exact ⟨by decide, h.1, h.2.1, h.2.2 w4fed [] []⟩

/-! ### Character-level facts used by the normalizer proofs -/

theorem char_eq_of_toNat_eq {a b : Char} (h : a.toNat = b.toNat) : a = b := by
  apply Char.ext
  apply UInt32.ext
  simpa [Char.toNat, UInt32.toNat] using h

theorem toNat_ofNat_letter {n : Nat} (h1 : 97 ≤ n) (h2 : n ≤ 122) :
    (Char.ofNat n).toNat = n := by
  have hv : n.isValidChar := Or.inl (by omega)
  simp [Char.ofNat, hv, Char.ofNatAux, Char.toNat, UInt32.toNat, UInt32.ofNatCore]

theorem lowerChar_toNat (c : Char) :
    (lowerChar c).toNat
      = if 65 ≤ c.toNat ∧ c.toNat ≤ 90 then c.toNat + 32 else c.toNat := by
  unfold lowerChar
  dsimp only
  by_cases h : 65 ≤ c.toNat ∧ c.toNat ≤ 90
  · have hb : (65 ≤ c.toNat && c.toNat ≤ 90) = true := by
      simp only [Bool.and_eq_true, decide_eq_true_eq]
      omega
    rw [if_pos hb, if_pos h]
    exact toNat_ofNat_letter (by omega) (by omega)
  · have hb : ¬ (65 ≤ c.toNat && c.toNat ≤ 90) = true := by
      simp only [Bool.and_eq_true, decide_eq_true_eq]
      omega
    rw [if_neg hb, if_neg h]

theorem isWordChar_true_iff (c : Char) :
    isWordChar c = true ↔
      (48 ≤ c.toNat ∧ c.toNat ≤ 57) ∨ (65 ≤ c.toNat ∧ c.toNat ≤ 90)
        ∨ (97 ≤ c.toNat ∧ c.toNat ≤ 122) ∨ c.toNat = 95 := by
  simp only [isWordChar, Bool.or_eq_true, Bool.and_eq_true, decide_eq_true_eq]
  omega

theorem pyIsSpace_true_iff (c : Char) :
    pyIsSpace c = true ↔
      c.toNat = 32 ∨ (9 ≤ c.toNat ∧ c.toNat ≤ 13) ∨ (28 ≤ c.toNat ∧ c.toNat ≤ 31)
        ∨ c.toNat = 133 ∨ c.toNat = 160 := by
  simp only [pyIsSpace, Bool.or_eq_true, Bool.and_eq_true, decide_eq_true_eq]
  omega

theorem lowerChar_idem (c : Char) : lowerChar (lowerChar c) = lowerChar c := by
  apply char_eq_of_toNat_eq
  rw [lowerChar_toNat (lowerChar c), lowerChar_toNat c]
  by_cases h : 65 ≤ c.toNat ∧ c.toNat ≤ 90
  · rw [if_pos h, if_neg (by omega)]
  · rw [if_neg h, if_neg h]

theorem isWordChar_lowerChar (c : Char) : isWordChar (lowerChar c) = isWordChar c := by
  rw [Bool.eq_iff_iff, isWordChar_true_iff, isWordChar_true_iff, lowerChar_toNat]
  by_cases h : 65 ≤ c.toNat ∧ c.toNat ≤ 90
  · rw [if_pos h]; omega
  · rw [if_neg h]

theorem pyIsSpace_lowerChar (c : Char) : pyIsSpace (lowerChar c) = pyIsSpace c := by
  rw [Bool.eq_iff_iff, pyIsSpace_true_iff, pyIsSpace_true_iff, lowerChar_toNat]
  by_cases h : 65 ≤ c.toNat ∧ c.toNat ≤ 90
  · rw [if_pos h]; omega
  · rw [if_neg h]

theorem not_ws_of_word {c : Char} (h : isWordChar c = true) : pyIsSpace c = false := by
  rw [isWordChar_true_iff] at h
  rw [← Bool.not_eq_true, pyIsSpace_true_iff]
  omega

theorem word_eq_of_lowerChar_eq {a b : Char} (h : lowerChar a = lowerChar b) :
    isWordChar a = isWordChar b := by
  rw [← isWordChar_lowerChar a, ← isWordChar_lowerChar b, h]

theorem eq_hash_of_lowerChar_eq_hash {c : Char} (h : lowerChar c = '#') : c = '#' := by
  apply char_eq_of_toNat_eq
  have h2 := congrArg Char.toNat h
  rw [lowerChar_toNat] at h2
  have hh : ('#' : Char).toNat = 35 := by decide
  rw [hh]
  rw [hh] at h2
  by_cases h3 : 65 ≤ c.toNat ∧ c.toNat ≤ 90
  · rw [if_pos h3] at h2; omega
  · rw [if_neg h3] at h2; omega

theorem wordChar_ne_comma {c : Char} (h : isWordChar c = true) : c ≠ ',' ∧ c ≠ '.' := by
  rw [isWordChar_true_iff] at h
  constructor <;> intro he <;> subst he <;> revert h <;> decide

theorem lowerChar_ne_punct {c : Char} (h1 : c ≠ ',') (h2 : c ≠ '.') :
    lowerChar c ≠ ',' ∧ lowerChar c ≠ '.' := by
  have hc : c.toNat ≠ 44 := fun he => h1 (char_eq_of_toNat_eq (by rw [he]; decide))
  have hd : c.toNat ≠ 46 := fun he => h2 (char_eq_of_toNat_eq (by rw [he]; decide))
  constructor <;> intro he <;> [have := congrArg Char.toNat he;
    have := congrArg Char.toNat he] <;> rw [lowerChar_toNat] at this <;>
    [rw [show (',' : Char).toNat = 44 from by decide] at this;
     rw [show ('.' : Char).toNat = 46 from by decide] at this] <;>
    by_cases h3 : 65 ≤ c.toNat ∧ c.toNat ≤ 90 <;>
    first
    | (rw [if_pos h3] at this; omega)
    | (rw [if_neg h3] at this; omega)

/-! ### Token decomposition of strings

To reason about the whole-word regex substitutions we decompose a string into
maximal runs of word characters (`Tok.word`) and single non-word characters
(`Tok.sep`).  Each `re.sub` pass of `format_address` acts on this
decomposition in a simple structural way, which is proved below and then used
to settle the normalizer claims. -/

inductive Tok where
  | word : Str → Tok
  | sep : Char → Tok
deriving DecidableEq

def flatT : List Tok → Str
  | [] => []
  | .word w :: ts => w ++ flatT ts
  | .sep c :: ts => c :: flatT ts

def toks : Str → List Tok
  | [] => []
  | c :: cs =>
    if isWordChar c = true then
      match toks cs with
      | .word w :: ts => .word (c :: w) :: ts
      | ts => .word [c] :: ts
    else .sep c :: toks cs

def notWordHead : List Tok → Prop
  | .word _ :: _ => False
  | _ => True

/-- Well-formed token lists: word runs are non-empty maximal runs of word
characters, separators are single non-word characters. -/
inductive WFT : List Tok → Prop where
  | nil : WFT []
  | sep {c : Char} {ts : List Tok} : isWordChar c = false → WFT ts →
      WFT (.sep c :: ts)
  | word {w : Str} {ts : List Tok} : w ≠ [] → (∀ c ∈ w, isWordChar c = true) →
      notWordHead ts → WFT ts → WFT (.word w :: ts)

theorem flatT_toks (s : Str) : flatT (toks s) = s := by
  induction s with
  | nil => rfl
  | cons c cs ih =>
    unfold toks
    by_cases h : isWordChar c = true
    · rw [if_pos h]
      cases hcs : toks cs with
      | nil =>
        rw [hcs] at ih
        simp only [flatT] at ih ⊢
        simpa using ih
      | cons t ts =>
        cases t with
        | word w =>
          rw [hcs] at ih
          simp only [flatT] at ih ⊢
          simpa using ih
        | sep d =>
          rw [hcs] at ih
          simp only [flatT] at ih ⊢
          simpa using ih
    · rw [if_neg h]
      simp only [flatT]
      rw [ih]

theorem WFT_toks (s : Str) : WFT (toks s) := by
  induction s with
  | nil => exact WFT.nil
  | cons c cs ih =>
    unfold toks
    by_cases h : isWordChar c = true
    · rw [if_pos h]
      cases hcs : toks cs with
      | nil => exact WFT.word (by simp) (by simpa using h) trivial WFT.nil
      | cons t ts =>
        rw [hcs] at ih
        cases t with
        | word w =>
          cases ih with
          | word hne hall hnw hwf =>
            refine WFT.word (by simp) ?_ hnw hwf
            intro d hd
            cases hd with
            | head => exact h
            | tail _ hd2 => exact hall d hd2
        | sep d =>
          cases ih with
          | sep hnw hwf =>
            exact WFT.word (by simp) (by intro e he; cases he with
              | head => exact h
              | tail _ he2 => cases he2) trivial (WFT.sep hnw hwf)
    · rw [if_neg h]
      exact WFT.sep (by simpa using h) ih

theorem toks_word_run (w : Str) (t : Str) (hne : w ≠ [])
    (hall : ∀ c ∈ w, isWordChar c = true) (hnw : notWordHead (toks t)) :
    toks (w ++ t) = .word w :: toks t := by
  induction w with
  | nil => exact absurd rfl hne
  | cons c w' ih =>
    have hc : isWordChar c = true := hall c (List.mem_cons_self c w')
    cases w' with
    | nil =>
      simp only [List.cons_append, List.nil_append]
      conv_lhs => rw [toks]
      rw [if_pos hc]
      cases ht : toks t with
      | nil => rfl
      | cons t0 ts =>
        cases t0 with
        | word u => rw [ht] at hnw; exact absurd hnw (by simp [notWordHead])
        | sep d => rfl
    | cons d w'' =>
      have ih2 := ih (by simp) (fun e he => hall e (List.mem_cons_of_mem c he))
      simp only [List.cons_append]
      conv_lhs => rw [toks]
      rw [if_pos hc]
      rw [List.cons_append] at ih2
      rw [ih2]

theorem toks_flatT {ts : List Tok} (h : WFT ts) : toks (flatT ts) = ts := by
  induction h with
  | nil => rfl
  | sep hc _ ih =>
    simp only [flatT]
    unfold toks
    rw [if_neg (by simp [hc])]
    rw [ih]
  | word hne hall hnw _ ih =>
    simp only [flatT]
    rw [toks_word_run _ _ hne hall (by rw [ih]; exact hnw), ih]

def headW : Str → Bool
  | [] => false
  | c :: _ => isWordChar c

theorem matchCI_length {pat s rest : Str} (h : matchCI pat s = some rest) :
    rest.length + pat.length = s.length := by
  induction pat generalizing s with
  | nil =>
    unfold matchCI at h
    cases h
    simp
  | cons p ps ih =>
    cases s with
    | nil => exact absurd h (by simp [matchCI])
    | cons c cs =>
      unfold matchCI at h
      split at h
      · have := ih h
        simp only [List.length_cons]
        omega
      · exact absurd h (by simp)

theorem matchCI_none_head {pat : Str} (hp : pat ≠ [])
    (hall : ∀ c ∈ pat, isWordChar c = true) {c : Char}
    (hc : isWordChar c = false) (t : Str) : matchCI pat (c :: t) = none := by
  cases pat with
  | nil => exact absurd rfl hp
  | cons p ps =>
    unfold matchCI
    rw [if_neg]
    intro he
    have hw := word_eq_of_lowerChar_eq he
    rw [hall p (List.mem_cons_self p ps), hc] at hw
    exact Bool.true_eq_false.mp hw

theorem matchCI_of_lcL {pat w : Str} (h : toLowerL w = toLowerL pat) (t : Str) :
    matchCI pat (w ++ t) = some t := by
  induction pat generalizing w with
  | nil =>
    have : w = [] := by
      cases w with
      | nil => rfl
      | cons c cs => exact absurd h (by simp [toLowerL])
    rw [this]
    rfl
  | cons p ps ih =>
    cases w with
    | nil => exact absurd h (by simp [toLowerL])
    | cons c cs =>
      simp only [toLowerL, List.map_cons, List.cons.injEq] at h
      simp only [List.cons_append]
      unfold matchCI
      rw [if_pos h.1.symm]
      exact ih (by simpa [toLowerL] using h.2) 

theorem subWBF_congr (pat rep : Str) :
    ∀ (f1 f2 : Nat) (b : Bool) (s : Str), s.length ≤ f1 → s.length ≤ f2 →
      subWBF pat rep f1 b s = subWBF pat rep f2 b s := by
  intro f1
  induction f1 with
  | zero =>
    intro f2 b s h1 _
    have : s = [] := List.length_eq_zero.mp (by omega)
    subst this
    cases f2 <;> rfl
  | succ f ih =>
    intro f2 b s h1 h2
    cases s with
    | nil => cases f2 <;> rfl
    | cons c cs =>
      cases f2 with
      | zero => simp at h2
      | succ f2' =>
        rw [subWBF, subWBF]
        cases hm : matchCI pat (c :: cs) with
        | none =>
          simp only []
          rw [ih f2' (isWordChar c) cs (by simpa using h1) (by simpa using h2)]
        | some rest =>
          simp only []
          have hr := matchCI_length hm
          split
          next hcond =>
            have hpne : pat ≠ [] := by
              simp only [Bool.and_eq_true, decide_eq_true_eq] at hcond
              exact hcond.1.1
            have hplen : 1 ≤ pat.length := by
              cases pat with
              | nil => exact absurd rfl hpne
              | cons _ _ => simp
            congr 1
            apply ih
            · simp only [List.length_cons] at h1 hr; omega
            · simp only [List.length_cons] at h2 hr; omega
          next hcond =>
            rw [ih f2' (isWordChar c) cs (by simpa using h1) (by simpa using h2)]

theorem subWB_nil (pat rep : Str) (b : Bool) : subWB pat rep b [] = [] := rfl

theorem subWB_cons (pat rep : Str) (hp : pat ≠ []) (b : Bool) (c : Char)
    (cs : Str) :
    subWB pat rep b (c :: cs)
      = match matchCI pat (c :: cs) with
        | some rest =>
          if (b ≠ isWordChar (pat.headD ' '))
              ∧ (isWordChar (pat.getLastD ' ') ≠ headW rest) then
            rep ++ subWB pat rep (isWordChar (pat.getLastD ' ')) rest
          else c :: subWB pat rep (isWordChar c) cs
        | none => c :: subWB pat rep (isWordChar c) cs := by
  unfold subWB
  simp only [List.length_cons]
  rw [subWBF]
  cases hm : matchCI pat (c :: cs) with
  | none => rfl
  | some rest =>
    simp only []
    have hr := matchCI_length hm
    have hplen : 1 ≤ pat.length := by
      cases pat with
      | nil => exact absurd rfl hp
      | cons _ _ => simp
    split
    next hcondT =>
      simp only [Bool.and_eq_true, decide_eq_true_eq] at hcondT
      rw [if_pos ⟨hcondT.1.2, hcondT.2⟩]
      congr 1
      apply subWBF_congr
      · simp only [List.length_cons] at hr; omega
      · omega
    next hcondF =>
      rw [if_neg]
      intro hx
      exact hcondF (by
        simp only [Bool.and_eq_true, decide_eq_true_eq]
        exact ⟨⟨hp, hx.1⟩, hx.2⟩)

theorem lcL_run_of_matchCI {pat : Str}
    (hpw : ∀ c ∈ pat, isWordChar c = true) (t : Str) (ht : headW t = false) :
    ∀ (a rest : Str), a ≠ [] → (∀ c ∈ a, isWordChar c = true) →
      matchCI pat (a ++ t) = some rest → headW rest = false →
      toLowerL a = toLowerL pat := by
  induction pat with
  | nil =>
    intro a rest hne hall hm hr
    unfold matchCI at hm
    cases hm
    cases a with
    | nil => exact absurd rfl hne
    | cons c a' =>
      rw [show headW ((c :: a') ++ t) = isWordChar c from rfl,
        hall c (List.mem_cons_self c a')] at hr
      cases hr
  | cons p ps ih =>
    intro a rest hne hall hm hr
    cases a with
    | nil => exact absurd rfl hne
    | cons c a' =>
      rw [List.cons_append] at hm
      unfold matchCI at hm
      split at hm
      case _ hlc =>
        cases a' with
        | nil =>
          cases ps with
          | nil =>
            unfold matchCI at hm
            cases hm
            simp only [List.nil_append] at hr
            simp [toLowerL, hlc]
          | cons q ps' =>
            rw [List.nil_append] at hm
            cases t with
            | nil => exact absurd hm (by simp [matchCI])
            | cons d t' =>
              rw [matchCI_none_head (by simp)
                (fun e he => hpw e (List.mem_cons_of_mem p he))
                (by simpa [headW] using ht) t'] at hm
              cases hm
        | cons d a'' =>
          cases ps with
          | nil =>
            unfold matchCI at hm
            cases hm
            rw [show headW ((d :: a'') ++ t) = isWordChar d from rfl,
              hall d (List.mem_cons_of_mem c (List.mem_cons_self d a''))] at hr
            cases hr
          | cons q ps' =>
            have := ih (fun e he => hpw e (List.mem_cons_of_mem p he))
              (d :: a'') rest (by simp)
              (fun e he => hall e (List.mem_cons_of_mem c he)) hm hr
            simp only [toLowerL, List.map_cons, List.cons.injEq]
            exact ⟨hlc.symm, by simpa [toLowerL] using this⟩
      case _ => cases hm

theorem headW_word (pat : Str) (hp : pat ≠ [])
    (hpw : ∀ c ∈ pat, isWordChar c = true) :
    isWordChar (pat.headD ' ') = true ∧ isWordChar (pat.getLastD ' ') = true := by
  cases pat with
  | nil => exact absurd rfl hp
  | cons p ps =>
    constructor
    · exact hpw p (List.mem_cons_self p ps)
    · rw [List.getLastD_eq_getLast?, List.getLast?_eq_getLast (p :: ps) (by simp)]
      exact hpw _ (List.getLast_mem _)

theorem subWB_flag_sep {pat rep : Str} (hp : pat ≠ [])
    (hpw : ∀ c ∈ pat, isWordChar c = true) (t : Str) (ht : headW t = false)
    (b b' : Bool) : subWB pat rep b t = subWB pat rep b' t := by
  cases t with
  | nil => rfl
  | cons c cs =>
    rw [subWB_cons pat rep hp b, subWB_cons pat rep hp b',
      matchCI_none_head hp hpw (by simpa [headW] using ht) cs]

theorem subWB_word_run {pat rep : Str} (hp : pat ≠ [])
    (hpw : ∀ c ∈ pat, isWordChar c = true) :
    ∀ (a : Str) (b : Bool) (t : Str), a ≠ [] →
      (∀ c ∈ a, isWordChar c = true) → headW t = false →
      (b = true ∨ toLowerL a ≠ toLowerL pat) →
      subWB pat rep b (a ++ t) = a ++ subWB pat rep true t := by
  intro a
  induction a with
  | nil => intro b t hne _ _ _; exact absurd rfl hne
  | cons c a' ih =>
    intro b t _ hall ht hside
    have hc : isWordChar c = true := hall c (List.mem_cons_self c a')
    rw [List.cons_append, subWB_cons pat rep hp b]
    cases hm : matchCI pat (c :: (a' ++ t)) with
    | none =>
      simp only []
      rw [hc]
      cases a' with
      | nil => rfl
      | cons d a'' =>
        rw [ih true t (by simp)
          (fun e he => hall e (List.mem_cons_of_mem c he)) ht (Or.inl rfl)]
        rfl
    | some rest =>
      simp only []
      rw [if_neg, hc]
      · cases a' with
        | nil => rfl
        | cons d a'' =>
          rw [ih true t (by simp)
            (fun e he => hall e (List.mem_cons_of_mem c he)) ht (Or.inl rfl)]
          rfl
      · intro hcond
        obtain ⟨h1, h2⟩ := hcond
        cases hside with
        | inl hbt =>
          rw [hbt, (headW_word pat hp hpw).1] at h1
          exact h1 rfl
        | inr hlc =>
          rw [(headW_word pat hp hpw).2] at h2
          have hrw : headW rest = false := by
            cases hW : headW rest with
            | false => rfl
            | true => rw [hW] at h2; exact absurd rfl h2
          exact hlc (lcL_run_of_matchCI hpw t ht (c :: a') rest (by simp) hall
            (by rw [List.cons_append]; exact hm) hrw)

/-- The action of one whole-word substitution on the token decomposition:
word runs case-insensitively equal to the pattern become the replacement. -/
def mapW (p r : Str) : List Tok → List Tok :=
  List.map (fun t => match t with
    | Tok.word w => Tok.word (if toLowerL w = toLowerL p then r else w)
    | Tok.sep c => Tok.sep c)

theorem headW_flatT_sep {ts : List Tok} (h : WFT ts) (hnw : notWordHead ts) :
    headW (flatT ts) = false := by
  cases ts with
  | nil => rfl
  | cons t ts' =>
    cases t with
    | word w => exact absurd hnw (by simp [notWordHead])
    | sep c =>
      cases h with
      | sep hc _ => simpa [flatT, headW] using hc

theorem subWB_mapW {p r : Str} (hp : p ≠ [])
    (hpw : ∀ c ∈ p, isWordChar c = true) :
    ∀ {ts : List Tok}, WFT ts →
      subWB p r false (flatT ts) = flatT (mapW p r ts) := by
  intro ts h
  induction h with
  | nil => rfl
  | @sep c ts' hc hwf ih =>
    show subWB p r false (c :: flatT ts') = flatT (mapW p r (Tok.sep c :: ts'))
    rw [subWB_cons p r hp false, matchCI_none_head hp hpw hc (flatT ts')]
    simp only []
    rw [hc, ih]
    rfl
  | @word w ts' hne hall hnw hwf ih =>
    have hsep : headW (flatT ts') = false := headW_flatT_sep hwf hnw
    show subWB p r false (w ++ flatT ts') = flatT (mapW p r (Tok.word w :: ts'))
    by_cases hlc : toLowerL w = toLowerL p
    · cases w with
      | nil => exact absurd rfl hne
      | cons c w' =>
        have hm : matchCI p (c :: (w' ++ flatT ts')) = some (flatT ts') := by
          rw [← List.cons_append]
          exact matchCI_of_lcL hlc (flatT ts')
        rw [List.cons_append, subWB_cons p r hp false, hm]
        simp only []
        rw [if_pos ⟨by rw [(headW_word p hp hpw).1]; simp,
          by rw [(headW_word p hp hpw).2, hsep]; simp⟩]
        rw [(headW_word p hp hpw).2,
          subWB_flag_sep hp hpw (flatT ts') hsep true false, ih]
        simp only [mapW, List.map_cons, if_pos hlc, flatT]
    · rw [subWB_word_run hp hpw w false (flatT ts') hne hall hsep (Or.inr hlc),
        subWB_flag_sep hp hpw (flatT ts') hsep true false, ih]
      simp only [mapW, List.map_cons, if_neg hlc, flatT]

/-- The action of the `\b#\b` substitution on the token decomposition: a `#`
separator directly between two word runs merges them with `Unit` in between
(matching the regex, whose boundaries require word characters on both sides
of the `#`). -/
def hashPass : List Tok → List Tok
  | Tok.word a :: Tok.sep c :: Tok.word b :: ts =>
    if c = '#' then hashPass (Tok.word (a ++ "Unit".data ++ b) :: ts)
    else Tok.word a :: hashPass (Tok.sep c :: Tok.word b :: ts)
  | t :: ts => t :: hashPass ts
  | [] => []
termination_by ts => ts.length

theorem hashPass_nil : hashPass [] = [] := by
  simp [hashPass]

theorem hashPass_sep (c : Char) (ts : List Tok) :
    hashPass (.sep c :: ts) = .sep c :: hashPass ts := by
  cases ts with
  | nil => simp [hashPass]
  | cons t ts' => cases t <;> simp [hashPass]

theorem hashPass_merge (a b : Str) (ts : List Tok) :
    hashPass (.word a :: .sep '#' :: .word b :: ts)
      = hashPass (.word (a ++ "Unit".data ++ b) :: ts) := by
  rw [hashPass]
  rw [if_pos rfl]

theorem hashPass_word_nil (a : Str) : hashPass [.word a] = [.word a] := by
  simp [hashPass]

theorem hashPass_word_sep (a : Str) (c : Char) (ts : List Tok)
    (h : c ≠ '#' ∨ notWordHead ts) :
    hashPass (.word a :: .sep c :: ts) = .word a :: hashPass (.sep c :: ts) := by
  cases ts with
  | nil => simp [hashPass]
  | cons t ts' =>
    cases t with
    | word b =>
      cases h with
      | inl h => rw [hashPass, if_neg h]
      | inr h => exact absurd h (by simp [notWordHead])
    | sep d => simp [hashPass]

theorem hashPass_word_word (a b : Str) (ts : List Tok) :
    hashPass (.word a :: .word b :: ts) = .word a :: hashPass (.word b :: ts) := by
  simp [hashPass]

theorem flatT_hashPass_word_append :
    ∀ (ts : List Tok) (x y : Str),
      flatT (hashPass (Tok.word (x ++ y) :: ts))
        = x ++ flatT (hashPass (Tok.word y :: ts))
  | [], x, y => by
    rw [hashPass_word_nil, hashPass_word_nil]
    simp [flatT]
  | Tok.word b :: ts', x, y => by
    rw [hashPass_word_word, hashPass_word_word]
    simp [flatT]
  | Tok.sep c :: Tok.word b :: ts', x, y => by
    by_cases hc : c = '#'
    · subst hc
      rw [hashPass_merge, hashPass_merge]
      rw [show (x ++ y) ++ "Unit".data ++ b = x ++ (y ++ "Unit".data ++ b) by
        simp [List.append_assoc]]
      exact flatT_hashPass_word_append ts' x (y ++ "Unit".data ++ b)
    · rw [hashPass_word_sep _ _ _ (Or.inl hc),
        hashPass_word_sep _ _ _ (Or.inl hc)]
      simp [flatT]
  | Tok.sep c :: [], x, y => by
    rw [hashPass_word_sep _ _ _ (Or.inr (by simp [notWordHead])),
      hashPass_word_sep _ _ _ (Or.inr (by simp [notWordHead]))]
    simp [flatT]
  | Tok.sep c :: Tok.sep d :: ts', x, y => by
    rw [hashPass_word_sep _ _ _ (Or.inr (by simp [notWordHead])),
      hashPass_word_sep _ _ _ (Or.inr (by simp [notWordHead]))]
    simp [flatT]
termination_by ts _ _ => ts.length

theorem matchCI_hash_word {c : Char} (hc : isWordChar c = true) (t : Str) :
    matchCI "#".data (c :: t) = none := by
  show matchCI ['#'] (c :: t) = none
  unfold matchCI
  rw [if_neg]
  intro he
  have h1 : lowerChar '#' = '#' := by decide
  rw [h1] at he
  have := eq_hash_of_lowerChar_eq_hash he.symm
  subst this
  exact absurd hc (by decide)

theorem matchCI_hash_ne {c : Char} (hc : c ≠ '#') (t : Str) :
    matchCI "#".data (c :: t) = none := by
  show matchCI ['#'] (c :: t) = none
  unfold matchCI
  rw [if_neg]
  intro he
  have h1 : lowerChar '#' = '#' := by decide
  rw [h1] at he
  exact hc (eq_hash_of_lowerChar_eq_hash he.symm)

theorem matchCI_hash_hash (t : Str) : matchCI "#".data ('#' :: t) = some t := by
  show matchCI ['#'] ('#' :: t) = some t
  simp [matchCI]

theorem subWB_hash_word_run (rep : Str) :
    ∀ (a : Str) (b : Bool) (t : Str), a ≠ [] →
      (∀ c ∈ a, isWordChar c = true) →
      subWB "#".data rep b (a ++ t) = a ++ subWB "#".data rep true t := by
  intro a
  induction a with
  | nil => intro b t hne _; exact absurd rfl hne
  | cons c a' ih =>
    intro b t _ hall
    have hc : isWordChar c = true := hall c (List.mem_cons_self c a')
    rw [List.cons_append, subWB_cons "#".data rep (by decide) b,
      matchCI_hash_word hc]
    simp only []
    rw [hc]
    cases a' with
    | nil => rfl
    | cons d a'' =>
      rw [ih true t (by simp) (fun e he => hall e (List.mem_cons_of_mem c he))]
      rfl

theorem subWB_hashPass :
    ∀ (ts : List Tok), WFT ts →
      subWB "#".data "Unit".data false (flatT ts) = flatT (hashPass ts)
  | [], _ => by rw [hashPass_nil]; rfl
  | Tok.sep c :: ts', h => by
    have hc : isWordChar c = false := by cases h with | sep hc _ => exact hc
    have hwf : WFT ts' := by cases h with | sep _ hwf => exact hwf
    rw [hashPass_sep]
    show subWB "#".data "Unit".data false (c :: flatT ts')
      = c :: flatT (hashPass ts')
    by_cases hch : c = '#'
    · subst hch
      rw [subWB_cons _ _ (by decide) false, matchCI_hash_hash]
      simp only []
      rw [if_neg (fun hcond => hcond.1 (by decide))]
      rw [show isWordChar '#' = false from by decide]
      rw [subWB_hashPass ts' hwf]
    · rw [subWB_cons _ _ (by decide) false, matchCI_hash_ne hch]
      simp only []
      rw [hc, subWB_hashPass ts' hwf]
  | Tok.word w :: ts', h => by
    have hne : w ≠ [] := by cases h with | word a _ _ _ => exact a
    have hall : ∀ c ∈ w, isWordChar c = true := by
      cases h with | word _ a _ _ => exact a
    have hnw : notWordHead ts' := by cases h with | word _ _ a _ => exact a
    have hwf : WFT ts' := by cases h with | word _ _ _ a => exact a
    show subWB "#".data "Unit".data false (w ++ flatT ts')
      = flatT (hashPass (Tok.word w :: ts'))
    rw [subWB_hash_word_run "Unit".data w false (flatT ts') hne hall]
    cases ts' with
    | nil =>
      rw [hashPass_word_nil]
      simp [subWB_nil, flatT]
    | cons t2 ts'' =>
      cases t2 with
      | word b => exact absurd hnw (by simp [notWordHead])
      | sep c =>
        have hcw : isWordChar c = false := by cases hwf with | sep x _ => exact x
        have hwf'' : WFT ts'' := by cases hwf with | sep _ x => exact x
        by_cases hch : c = '#'
        · subst hch
          cases ts'' with
          | nil =>
            rw [hashPass_word_sep _ _ _ (Or.inr (by simp [notWordHead])),
              hashPass_sep, hashPass_nil]
            show w ++ subWB "#".data "Unit".data true ('#' :: flatT ([] : List Tok))
              = flatT (Tok.word w :: Tok.sep '#' :: [])
            rw [subWB_cons _ _ (by decide) true, matchCI_hash_hash]
            simp only []
            rw [if_neg (fun hcond => hcond.2 (by decide))]
            rw [show isWordChar '#' = false from by decide]
            simp [flatT, subWB_nil]
          | cons t3 ts₃ =>
            cases t3 with
            | sep d =>
              have hdw : isWordChar d = false := by
                cases hwf'' with | sep x _ => exact x
              rw [hashPass_word_sep _ _ _ (Or.inr (by simp [notWordHead])),
                hashPass_sep]
              show w ++ subWB "#".data "Unit".data true
                  ('#' :: flatT (Tok.sep d :: ts₃))
                = flatT (Tok.word w :: Tok.sep '#' :: hashPass (Tok.sep d :: ts₃))
              rw [subWB_cons _ _ (by decide) true, matchCI_hash_hash]
              simp only []
              rw [if_neg (fun hcond => hcond.2 (by
                show isWordChar (List.getLastD "#".data ' ')
                  = headW (flatT (Tok.sep d :: ts₃))
                rw [show flatT (Tok.sep d :: ts₃) = d :: flatT ts₃ from rfl]
                simp [headW, hdw]
                try decide))]
              rw [show isWordChar '#' = false from by decide]
              rw [subWB_hashPass (Tok.sep d :: ts₃) hwf'']
              simp [flatT]
            | word b =>
              have hbne : b ≠ [] := by cases hwf'' with | word a _ _ _ => exact a
              have hball : ∀ e ∈ b, isWordChar e = true := by
                cases hwf'' with | word _ a _ _ => exact a
              have hbnw : notWordHead ts₃ := by
                cases hwf'' with | word _ _ a _ => exact a
              have hbwf : WFT ts₃ := by cases hwf'' with | word _ _ _ a => exact a
              rw [hashPass_merge]
              show w ++ subWB "#".data "Unit".data true
                  ('#' :: flatT (Tok.word b :: ts₃))
                = flatT (hashPass (Tok.word (w ++ "Unit".data ++ b) :: ts₃))
              rw [subWB_cons _ _ (by decide) true, matchCI_hash_hash]
              simp only []
              rw [if_pos ⟨by decide, by
                cases b with
                | nil => exact absurd rfl hbne
                | cons c0 b' =>
                  rw [show flatT (Tok.word (c0 :: b') :: ts₃)
                    = c0 :: (b' ++ flatT ts₃) from rfl]
                  simp [headW, hball c0 (List.mem_cons_self c0 b')]
                  try decide⟩]
              rw [show isWordChar (List.getLastD "#".data ' ') = false from by decide]
              rw [show flatT (Tok.word b :: ts₃) = b ++ flatT ts₃ from rfl]
              rw [show (b ++ flatT ts₃) = flatT (Tok.word b :: ts₃) from rfl]
              rw [subWB_hashPass (Tok.word b :: ts₃)
                (WFT.word hbne hball hbnw hbwf)]
              rw [show w ++ "Unit".data ++ b = w ++ ("Unit".data ++ b) from by
                simp [List.append_assoc]]
              rw [flatT_hashPass_word_append ts₃ w ("Unit".data ++ b)]
              try rw [flatT_hashPass_word_append ts₃ "Unit".data b]
              try simp [List.append_assoc]
        · rw [hashPass_word_sep _ _ _ (Or.inl hch), hashPass_sep]
          show w ++ subWB "#".data "Unit".data true (c :: flatT ts'')
            = flatT (Tok.word w :: Tok.sep c :: hashPass ts'')
          rw [subWB_cons _ _ (by decide) true, matchCI_hash_ne hch]
          simp only []
          rw [hcw, subWB_hashPass ts'' hwf'']
          simp [flatT]
termination_by ts _ => ts.length

def dropWSsep : List Tok → List Tok
  | Tok.sep c :: ts => if pyIsSpace c then dropWSsep ts else Tok.sep c :: ts
  | ts => ts

theorem dropWSsep_length : ∀ ts : List Tok, (dropWSsep ts).length ≤ ts.length
  | [] => le_refl _
  | Tok.word _ :: _ => le_refl _
  | Tok.sep c :: ts => by
    unfold dropWSsep
    by_cases h : pyIsSpace c = true
    · rw [if_pos h]
      exact le_trans (dropWSsep_length ts) (by simp)
    · rw [if_neg h]

/-- The action of `re.sub(r"\s+", " ")` on the token decomposition: each
maximal run of whitespace separators becomes the single separator `' '`
(word characters are never whitespace). -/
def collT : List Tok → List Tok
  | [] => []
  | Tok.word w :: ts => Tok.word w :: collT ts
  | Tok.sep c :: ts =>
    if pyIsSpace c then Tok.sep ' ' :: collT (dropWSsep ts)
    else Tok.sep c :: collT ts
termination_by ts => ts.length
decreasing_by
  · simp only [List.length_cons]; omega
  · simp only [List.length_cons]
    exact Nat.lt_succ_of_le (dropWSsep_length ts)
  · simp only [List.length_cons]; omega

theorem collT_nil : collT [] = [] := by simp [collT]

theorem collT_word (w : Str) (ts : List Tok) :
    collT (Tok.word w :: ts) = Tok.word w :: collT ts := by
  simp [collT]

theorem collT_sep_ws {c : Char} (hc : pyIsSpace c = true) (ts : List Tok) :
    collT (Tok.sep c :: ts) = Tok.sep ' ' :: collT (dropWSsep ts) := by
  rw [collT, if_pos hc]

theorem collT_sep_nws {c : Char} (hc : pyIsSpace c = false) (ts : List Tok) :
    collT (Tok.sep c :: ts) = Tok.sep c :: collT ts := by
  rw [collT, if_neg (by simp [hc])]

theorem collapseGo_nonspace :
    ∀ (a : Str) (b : Bool) (t : Str), a ≠ [] →
      (∀ c ∈ a, pyIsSpace c = false) →
      collapseGo b (a ++ t) = a ++ collapseGo false t := by
  intro a
  induction a with
  | nil => intro b t hne _; exact absurd rfl hne
  | cons c a' ih =>
    intro b t _ hall
    have hc : pyIsSpace c = false := hall c (List.mem_cons_self c a')
    rw [List.cons_append, collapseGo, if_neg (by simp [hc])]
    cases a' with
    | nil => rfl
    | cons d a'' =>
      rw [ih false t (by simp) (fun e he => hall e (List.mem_cons_of_mem c he))]
      rfl

def headNS : Str → Prop
  | [] => True
  | c :: _ => pyIsSpace c = false

theorem collapseGo_true_false {t : Str} (ht : headNS t) :
    collapseGo true t = collapseGo false t := by
  cases t with
  | nil => rfl
  | cons c cs =>
    rw [collapseGo, collapseGo, if_neg (by simpa [headNS] using ht),
      if_neg (by simpa [headNS] using ht)]

theorem WFT_dropWSsep : ∀ {ts : List Tok}, WFT ts → WFT (dropWSsep ts)
  | [], h => h
  | Tok.word _ :: _, h => h
  | Tok.sep c :: ts, h => by
    unfold dropWSsep
    by_cases hc : pyIsSpace c = true
    · rw [if_pos hc]
      cases h with
      | sep _ hwf => exact WFT_dropWSsep hwf
    · rw [if_neg hc]
      exact h

theorem headNS_flatT_dropWSsep : ∀ {ts : List Tok}, WFT ts →
    headNS (flatT (dropWSsep ts))
  | [], _ => trivial
  | Tok.word w :: ts, h => by
    cases h with
    | word hne hall _ _ =>
      cases w with
      | nil => exact absurd rfl hne
      | cons c w' =>
        show headNS (((c :: w') ++ flatT ts))
        simpa [headNS] using not_ws_of_word (hall c (List.mem_cons_self c w'))
  | Tok.sep c :: ts, h => by
    unfold dropWSsep
    by_cases hc : pyIsSpace c = true
    · rw [if_pos hc]
      cases h with
      | sep _ hwf => exact headNS_flatT_dropWSsep hwf
    · rw [if_neg hc]
      simpa [headNS, flatT] using (by simpa using hc)

theorem collapseGo_skipWS : ∀ {ts : List Tok}, WFT ts →
    collapseGo true (flatT ts) = collapseGo true (flatT (dropWSsep ts))
  | [], _ => rfl
  | Tok.word _ :: _, _ => rfl
  | Tok.sep c :: ts, h => by
    unfold dropWSsep
    by_cases hc : pyIsSpace c = true
    · rw [if_pos hc]
      show collapseGo true (c :: flatT ts) = _
      rw [collapseGo, if_pos hc]
      cases h with
      | sep _ hwf => exact collapseGo_skipWS hwf
    · rw [if_neg hc]

theorem collapseWS_collT : ∀ (ts : List Tok), WFT ts →
    collapseWS (flatT ts) = flatT (collT ts)
  | [], _ => by rw [collT_nil]; rfl
  | Tok.word w :: ts, h => by
    rw [collT_word]
    cases h with
    | word hne hall hnw hwf =>
      show collapseGo false (w ++ flatT ts) = flatT (Tok.word w :: collT ts)
      rw [collapseGo_nonspace w false (flatT ts) hne
        (fun c hc => not_ws_of_word (hall c hc))]
      rw [show collapseGo false (flatT ts) = flatT (collT ts) from
        collapseWS_collT ts hwf]
      rfl
  | Tok.sep c :: ts, h => by
    have hwf : WFT ts := by cases h with | sep _ x => exact x
    by_cases hc : pyIsSpace c = true
    · rw [collT_sep_ws hc]
      show collapseGo false (c :: flatT ts) = _
      rw [collapseGo, if_pos hc, if_neg (by simp)]
      rw [collapseGo_skipWS hwf,
        collapseGo_true_false (headNS_flatT_dropWSsep hwf)]
      rw [show collapseGo false (flatT (dropWSsep ts))
          = flatT (collT (dropWSsep ts)) from
        collapseWS_collT (dropWSsep ts) (WFT_dropWSsep hwf)]
      rfl
    · have hc' : pyIsSpace c = false := by simpa using hc
      rw [collT_sep_nws hc']
      show collapseGo false (c :: flatT ts) = _
      rw [collapseGo, if_neg (by simp [hc'])]
      rw [show collapseGo false (flatT ts) = flatT (collT ts) from
        collapseWS_collT ts hwf]
      rfl
termination_by ts _ => ts.length
decreasing_by
  all_goals try subst_vars
  all_goals simp only [List.length_cons]
  all_goals first
    | omega
    | exact Nat.lt_succ_of_le (dropWSsep_length _)

/-- The action of `str.lower()` on the token decomposition. -/
def lowT : List Tok → List Tok :=
  List.map (fun t => match t with
    | Tok.word w => Tok.word (toLowerL w)
    | Tok.sep c => Tok.sep (lowerChar c))

theorem toLowerL_lowT : ∀ (ts : List Tok), toLowerL (flatT ts) = flatT (lowT ts)
  | [] => rfl
  | Tok.word w :: ts => by
    show toLowerL (w ++ flatT ts) = flatT (Tok.word (toLowerL w) :: lowT ts)
    rw [show toLowerL (w ++ flatT ts) = toLowerL w ++ toLowerL (flatT ts) from
      List.map_append lowerChar w (flatT ts)]
    rw [toLowerL_lowT ts]
    rfl
  | Tok.sep c :: ts => by
    show toLowerL (c :: flatT ts) = flatT (Tok.sep (lowerChar c) :: lowT ts)
    rw [show toLowerL (c :: flatT ts) = lowerChar c :: toLowerL (flatT ts) from
      List.map_cons lowerChar c (flatT ts)]
    rw [toLowerL_lowT ts]
    rfl

theorem notWordHead_map {f : Tok → Tok}
    (_hf : ∀ w, ∃ w', f (Tok.word w) = Tok.word w')
    (hg : ∀ c, ∃ c', f (Tok.sep c) = Tok.sep c') :
    ∀ {ts : List Tok}, notWordHead ts → notWordHead (List.map f ts) := by
  intro ts h
  cases ts with
  | nil => trivial
  | cons t ts' =>
    cases t with
    | word w => exact absurd h (by simp [notWordHead])
    | sep c =>
      obtain ⟨c', hc'⟩ := hg c
      simp only [List.map_cons, hc']
      trivial

theorem WFT_mapW {p r : Str} (hr : r ≠ [])
    (hrw : ∀ c ∈ r, isWordChar c = true) :
    ∀ {ts : List Tok}, WFT ts → WFT (mapW p r ts) := by
  intro ts h
  induction h with
  | nil => exact WFT.nil
  | @sep c ts' hc _ ih => exact WFT.sep hc ih
  | @word w ts' hne hall hnw _ ih =>
    show WFT (Tok.word (if toLowerL w = toLowerL p then r else w) :: mapW p r ts')
    by_cases hlc : toLowerL w = toLowerL p
    · rw [if_pos hlc]
      exact WFT.word hr hrw
        (notWordHead_map (fun w => ⟨_, rfl⟩) (fun c => ⟨c, rfl⟩) hnw) ih
    · rw [if_neg hlc]
      exact WFT.word hne hall
        (notWordHead_map (fun w => ⟨_, rfl⟩) (fun c => ⟨c, rfl⟩) hnw) ih

theorem WFT_lowT : ∀ {ts : List Tok}, WFT ts → WFT (lowT ts) := by
  intro ts h
  induction h with
  | nil => exact WFT.nil
  | @sep c ts' hc _ ih =>
    exact WFT.sep (by rw [isWordChar_lowerChar]; exact hc) ih
  | @word w ts' hne hall hnw _ ih =>
    refine WFT.word ?_ ?_
      (notWordHead_map (fun w => ⟨_, rfl⟩) (fun c => ⟨_, rfl⟩) hnw) ih
    · simpa [toLowerL] using hne
    · intro c hc
      obtain ⟨d, hd, hdc⟩ := List.mem_map.mp hc
      rw [← hdc, isWordChar_lowerChar]
      exact hall d hd

theorem notWordHead_hashPass : ∀ {ts : List Tok}, notWordHead ts →
    notWordHead (hashPass ts) := by
  intro ts h
  cases ts with
  | nil => rw [hashPass_nil]; trivial
  | cons t ts' =>
    cases t with
    | word w => exact absurd h (by simp [notWordHead])
    | sep c => rw [hashPass_sep]; trivial

theorem WFT_hashPass : ∀ (ts : List Tok), WFT ts → WFT (hashPass ts)
  | [], _ => by rw [hashPass_nil]; exact WFT.nil
  | Tok.sep c :: ts', h => by
    have hc : isWordChar c = false := by cases h with | sep x _ => exact x
    have hwf : WFT ts' := by cases h with | sep _ x => exact x
    rw [hashPass_sep]
    exact WFT.sep hc (WFT_hashPass ts' hwf)
  | Tok.word w :: ts', h => by
    have hne : w ≠ [] := by cases h with | word a _ _ _ => exact a
    have hall : ∀ c ∈ w, isWordChar c = true := by
      cases h with | word _ a _ _ => exact a
    have hnw : notWordHead ts' := by cases h with | word _ _ a _ => exact a
    have hwf : WFT ts' := by cases h with | word _ _ _ a => exact a
    cases ts' with
    | nil =>
      rw [hashPass_word_nil]
      exact WFT.word hne hall trivial WFT.nil
    | cons t2 ts'' =>
      cases t2 with
      | word b => exact absurd hnw (by simp [notWordHead])
      | sep c =>
        have hcw : isWordChar c = false := by cases hwf with | sep x _ => exact x
        have hwf'' : WFT ts'' := by cases hwf with | sep _ x => exact x
        by_cases hch : c = '#'
        · subst hch
          cases ts'' with
          | nil =>
            rw [hashPass_word_sep _ _ _ (Or.inr (by simp [notWordHead])),
              hashPass_sep, hashPass_nil]
            exact WFT.word hne hall (by simp [notWordHead])
              (WFT.sep hcw WFT.nil)
          | cons t3 ts₃ =>
            cases t3 with
            | sep d =>
              rw [hashPass_word_sep _ _ _ (Or.inr (by simp [notWordHead])),
                hashPass_sep]
              exact WFT.word hne hall (by simp [notWordHead])
                (WFT.sep hcw (WFT_hashPass (Tok.sep d :: ts₃) hwf''))
            | word b =>
              have hbne : b ≠ [] := by cases hwf'' with | word a _ _ _ => exact a
              have hball : ∀ e ∈ b, isWordChar e = true := by
                cases hwf'' with | word _ a _ _ => exact a
              have hbnw : notWordHead ts₃ := by
                cases hwf'' with | word _ _ a _ => exact a
              have hbwf : WFT ts₃ := by cases hwf'' with | word _ _ _ a => exact a
              rw [hashPass_merge]
              apply WFT_hashPass
              refine WFT.word (by simp) ?_ hbnw hbwf
              intro e he
              rcases List.mem_append.mp he with he1 | he2
              · rcases List.mem_append.mp he1 with he3 | he4
                · exact hall e he3
                · have hUnit : ∀ e ∈ "Unit".data, isWordChar e = true := by
                    decide
                  exact hUnit e he4
              · exact hball e he2
        · rw [hashPass_word_sep _ _ _ (Or.inl hch)]
          have : WFT (hashPass (Tok.sep c :: ts'')) :=
            WFT_hashPass (Tok.sep c :: ts'') hwf
          rw [hashPass_sep] at this
          rw [hashPass_sep]
          exact WFT.word hne hall (by simp [notWordHead]) this
termination_by ts _ => ts.length
decreasing_by
  all_goals try subst_vars
  all_goals simp only [List.length_cons]
  all_goals omega

theorem notWordHead_collT : ∀ {ts : List Tok}, notWordHead ts →
    notWordHead (collT ts) := by
  intro ts h
  cases ts with
  | nil => rw [collT_nil]; trivial
  | cons t ts' =>
    cases t with
    | word w => exact absurd h (by simp [notWordHead])
    | sep c =>
      by_cases hc : pyIsSpace c = true
      · rw [collT_sep_ws hc]; trivial
      · rw [collT_sep_nws (by simpa using hc)]; trivial

theorem WFT_collT : ∀ (ts : List Tok), WFT ts → WFT (collT ts)
  | [], _ => by rw [collT_nil]; exact WFT.nil
  | Tok.word w :: ts, h => by
    have hne : w ≠ [] := by cases h with | word a _ _ _ => exact a
    have hall : ∀ c ∈ w, isWordChar c = true := by
      cases h with | word _ a _ _ => exact a
    have hnw : notWordHead ts := by cases h with | word _ _ a _ => exact a
    have hwf : WFT ts := by cases h with | word _ _ _ a => exact a
    rw [collT_word]
    exact WFT.word hne hall (notWordHead_collT hnw) (WFT_collT ts hwf)
  | Tok.sep c :: ts, h => by
    have hc : isWordChar c = false := by cases h with | sep x _ => exact x
    have hwf : WFT ts := by cases h with | sep _ x => exact x
    by_cases hcs : pyIsSpace c = true
    · rw [collT_sep_ws hcs]
      exact WFT.sep (by decide) (WFT_collT (dropWSsep ts) (WFT_dropWSsep hwf))
    · rw [collT_sep_nws (by simpa using hcs)]
      exact WFT.sep hc (WFT_collT ts hwf)
termination_by ts _ => ts.length
decreasing_by
  all_goals simp only [List.length_cons]
  all_goals first
    | omega
    | exact Nat.lt_succ_of_le (dropWSsep_length _)

/-- The word-pattern/replacement pairs of the table (all but the final
`#` entry). -/
def wordPairs : List (Str × Str) := replacements.take 24

def goodPair (pr : Str × Str) : Prop :=
  pr.1 ≠ [] ∧ (∀ c ∈ pr.1, isWordChar c = true)
    ∧ pr.2 ≠ [] ∧ (∀ c ∈ pr.2, isWordChar c = true)

theorem wordPairs_good : ∀ pr ∈ wordPairs, goodPair pr := by
  simp only [goodPair]
  decide

theorem replacements_split :
    replacements = wordPairs ++ [("#".data, "Unit".data)] := by
  decide

/-- `applyRepl` is the 24 word-pattern passes followed by the `#` pass. -/
theorem applyRepl_split (s : Str) :
    applyRepl s = subWB "#".data "Unit".data false
      (wordPairs.foldl (fun acc pr => subWB pr.1 pr.2 false acc) s) := by
  unfold applyRepl
  rw [replacements_split, List.foldl_append, List.foldl_cons, List.foldl_nil]

def foldTok (prs : List (Str × Str)) (ts : List Tok) : List Tok :=
  prs.foldl (fun ts pr => mapW pr.1 pr.2 ts) ts

theorem foldStr_foldTok :
    ∀ (prs : List (Str × Str)), (∀ pr ∈ prs, goodPair pr) →
      ∀ {ts : List Tok}, WFT ts →
        prs.foldl (fun acc pr => subWB pr.1 pr.2 false acc) (flatT ts)
          = flatT (foldTok prs ts) := by
  intro prs
  induction prs with
  | nil => intro _ ts h; rfl
  | cons pr prs' ih =>
    intro hg ts h
    obtain ⟨h1, h2, h3, h4⟩ := hg pr (List.mem_cons_self pr prs')
    rw [List.foldl_cons, subWB_mapW h1 h2 h]
    exact ih (fun q hq => hg q (List.mem_cons_of_mem pr hq)) (WFT_mapW h3 h4 h)

theorem WFT_foldTok :
    ∀ (prs : List (Str × Str)), (∀ pr ∈ prs, goodPair pr) →
      ∀ {ts : List Tok}, WFT ts → WFT (foldTok prs ts) := by
  intro prs
  induction prs with
  | nil => intro _ ts h; exact h
  | cons pr prs' ih =>
    intro hg ts h
    obtain ⟨_, _, h3, h4⟩ := hg pr (List.mem_cons_self pr prs')
    exact ih (fun q hq => hg q (List.mem_cons_of_mem pr hq)) (WFT_mapW h3 h4 h)

/-- The token pipeline corresponding to
`lower(collapse(applyRepl(stripped input)))`. -/
def tokPipe (ts : List Tok) : List Tok :=
  lowT (collT (hashPass (foldTok wordPairs ts)))

theorem WFT_tokPipe {ts : List Tok} (h : WFT ts) : WFT (tokPipe ts) :=
  WFT_lowT (WFT_collT _ (WFT_hashPass _ (WFT_foldTok wordPairs wordPairs_good h)))

/-- Master correspondence: on a non-empty input, `clean_and_normalize` is the
token pipeline applied to the token decomposition of the stripped,
de-punctuated input. -/
theorem clean_and_normalize_eq_tokPipe (x : Str) (hx : x ≠ []) :
    clean_and_normalize x = flatT (tokPipe (toks (pyStrip (pySubPunct x)))) := by
  unfold clean_and_normalize
  rw [if_neg hx]
  generalize pyStrip (pySubPunct x) = s
  have hwf : WFT (toks s) := WFT_toks _
  conv_lhs => rw [show s = flatT (toks s) from (flatT_toks s).symm]
  rw [applyRepl_split, foldStr_foldTok wordPairs wordPairs_good hwf,
    subWB_hashPass _ (WFT_foldTok wordPairs wordPairs_good hwf),
    collapseWS_collT _ (WFT_hashPass _ (WFT_foldTok wordPairs wordPairs_good hwf)),
    toLowerL_lowT]
  rfl

def NoWord (q : Str) (ts : List Tok) : Prop :=
  ∀ w, Tok.word w ∈ ts → toLowerL w ≠ toLowerL q

theorem mapW_id {p r : Str} : ∀ {ts : List Tok}, NoWord p ts → mapW p r ts = ts := by
  intro ts h
  induction ts with
  | nil => rfl
  | cons t ts' ih =>
    have ih2 := ih (fun w hw => h w (List.mem_cons_of_mem t hw))
    cases t with
    | word w =>
      show Tok.word (if toLowerL w = toLowerL p then r else w) :: mapW p r ts'
        = Tok.word w :: ts'
      rw [if_neg (h w (List.mem_cons_self _ _)), ih2]
    | sep c =>
      show Tok.sep c :: mapW p r ts' = Tok.sep c :: ts'
      rw [ih2]

theorem word_mem_mapW {p r w : Str} {ts : List Tok}
    (h : Tok.word w ∈ mapW p r ts) :
    w = r ∨ (Tok.word w ∈ ts ∧ toLowerL w ≠ toLowerL p) := by
  obtain ⟨t, ht, hft⟩ := List.mem_map.mp h
  cases t with
  | word w0 =>
    by_cases hlc : toLowerL w0 = toLowerL p
    · simp only [if_pos hlc] at hft
      left
      exact (Tok.word.inj hft).symm
    · simp only [if_neg hlc] at hft
      right
      have : w0 = w := Tok.word.inj hft
      subst this
      exact ⟨ht, hlc⟩
  | sep c => simp at hft

theorem word_mem_foldTok :
    ∀ (prs : List (Str × Str)) {ts : List Tok} {w : Str},
      Tok.word w ∈ foldTok prs ts →
      (∃ pr ∈ prs, w = pr.2)
        ∨ (Tok.word w ∈ ts ∧ ∀ pr ∈ prs, toLowerL w ≠ toLowerL pr.1) := by
  intro prs
  induction prs with
  | nil => intro ts w h; exact Or.inr ⟨h, by simp⟩
  | cons pr prs' ih =>
    intro ts w h
    rcases ih h with h1 | ⟨h2, h3⟩
    · obtain ⟨q, hq, hwq⟩ := h1
      exact Or.inl ⟨q, List.mem_cons_of_mem pr hq, hwq⟩
    · rcases word_mem_mapW h2 with h4 | ⟨h5, h6⟩
      · exact Or.inl ⟨pr, List.mem_cons_self pr prs', h4⟩
      · refine Or.inr ⟨h5, ?_⟩
        intro q hq
        rcases List.mem_cons.mp hq with hq1 | hq2
        · rw [hq1]; exact h6
        · exact h3 q hq2

theorem word_mem_hashPass :
    ∀ (ts : List Tok), WFT ts → ∀ (w : Str), Tok.word w ∈ hashPass ts →
      Tok.word w ∈ ts ∨ 6 ≤ w.length
  | [], _, w, h => by rw [hashPass_nil] at h; cases h
  | Tok.sep c :: ts', h, w, hm => by
    have hwf : WFT ts' := by cases h with | sep _ x => exact x
    rw [hashPass_sep] at hm
    rcases List.mem_cons.mp hm with h1 | h2
    · cases h1
    · rcases word_mem_hashPass ts' hwf w h2 with h3 | h3
      · exact Or.inl (List.mem_cons_of_mem _ h3)
      · exact Or.inr h3
  | Tok.word a :: ts', h, w, hm => by
    have hne : a ≠ [] := by cases h with | word x _ _ _ => exact x
    have hnw : notWordHead ts' := by cases h with | word _ _ x _ => exact x
    have hwf : WFT ts' := by cases h with | word _ _ _ x => exact x
    cases ts' with
    | nil =>
      rw [hashPass_word_nil] at hm
      exact Or.inl hm
    | cons t2 ts'' =>
      cases t2 with
      | word b => exact absurd hnw (by simp [notWordHead])
      | sep c =>
        have hwf'' : WFT ts'' := by cases hwf with | sep _ x => exact x
        by_cases hch : c = '#'
        · subst hch
          cases ts'' with
          | nil =>
            rw [hashPass_word_sep _ _ _ (Or.inr (by simp [notWordHead])),
              hashPass_sep, hashPass_nil] at hm
            exact Or.inl hm
          | cons t3 ts₃ =>
            cases t3 with
            | sep d =>
              rw [hashPass_word_sep _ _ _ (Or.inr (by simp [notWordHead])),
                hashPass_sep] at hm
              rcases List.mem_cons.mp hm with h1 | h2
              · exact Or.inl (by rw [h1]; exact List.mem_cons_self _ _)
              · rcases List.mem_cons.mp h2 with h3 | h4
                · cases h3
                · rcases word_mem_hashPass (Tok.sep d :: ts₃) hwf'' w h4
                    with h5 | h5
                  · exact Or.inl (List.mem_cons_of_mem _ (List.mem_cons_of_mem _ h5))
                  · exact Or.inr h5
            | word b =>
              have hbne : b ≠ [] := by cases hwf'' with | word x _ _ _ => exact x
              have hbnw : notWordHead ts₃ := by
                cases hwf'' with | word _ _ x _ => exact x
              have hbwf : WFT ts₃ := by cases hwf'' with | word _ _ _ x => exact x
              rw [hashPass_merge] at hm
              have hWFm : WFT (Tok.word (a ++ "Unit".data ++ b) :: ts₃) := by
                refine WFT.word (by simp) ?_ hbnw hbwf
                intro e he
                have hallA : ∀ e ∈ a, isWordChar e = true := by
                  cases h with | word _ x _ _ => exact x
                have hallB : ∀ e ∈ b, isWordChar e = true := by
                  cases hwf'' with | word _ x _ _ => exact x
                rcases List.mem_append.mp he with he1 | he2
                · rcases List.mem_append.mp he1 with he3 | he4
                  · exact hallA e he3
                  · have hUnit : ∀ e ∈ "Unit".data, isWordChar e = true := by
                      decide
                    exact hUnit e he4
                · exact hallB e he2
              rcases word_mem_hashPass _ hWFm w hm with h1 | h1
              · rcases List.mem_cons.mp h1 with h2 | h3
                · right
                  rw [Tok.word.inj h2]
                  have h4 : 1 ≤ a.length := by
                    cases a with
                    | nil => exact absurd rfl hne
                    | cons _ _ => simp
                  have h5 : 1 ≤ b.length := by
                    cases b with
                    | nil => exact absurd rfl hbne
                    | cons _ _ => simp
                  simp only [List.length_append, List.length_cons,
                    List.length_nil]
                  omega
                · exact Or.inl (List.mem_cons_of_mem _
                    (List.mem_cons_of_mem _ (List.mem_cons_of_mem _ h3)))
              · exact Or.inr h1
        · rw [hashPass_word_sep _ _ _ (Or.inl hch), hashPass_sep] at hm
          rcases List.mem_cons.mp hm with h1 | h2
          · exact Or.inl (by rw [h1]; exact List.mem_cons_self _ _)
          · rcases List.mem_cons.mp h2 with h3 | h4
            · cases h3
            · rcases word_mem_hashPass ts'' hwf'' w h4 with h5 | h5
              · exact Or.inl (List.mem_cons_of_mem _ (List.mem_cons_of_mem _ h5))
              · exact Or.inr h5
termination_by ts _ _ _ => ts.length
decreasing_by
  all_goals try subst_vars
  all_goals simp only [List.length_cons]
  all_goals omega

theorem mem_dropWSsep : ∀ {ts : List Tok} {t : Tok}, t ∈ dropWSsep ts → t ∈ ts
  | [], _, h => h
  | Tok.word _ :: _, _, h => h
  | Tok.sep c :: ts, t, h => by
    unfold dropWSsep at h
    by_cases hc : pyIsSpace c = true
    · rw [if_pos hc] at h
      exact List.mem_cons_of_mem _ (mem_dropWSsep h)
    · rw [if_neg hc] at h
      exact h

theorem word_mem_collT :
    ∀ (ts : List Tok) {w : Str}, Tok.word w ∈ collT ts → Tok.word w ∈ ts
  | [], w, h => by rw [collT_nil] at h; cases h
  | Tok.word a :: ts, w, h => by
    rw [collT_word] at h
    rcases List.mem_cons.mp h with h1 | h2
    · rw [h1]; exact List.mem_cons_self _ _
    · exact List.mem_cons_of_mem _ (word_mem_collT ts h2)
  | Tok.sep c :: ts, w, h => by
    by_cases hc : pyIsSpace c = true
    · rw [collT_sep_ws hc] at h
      rcases List.mem_cons.mp h with h1 | h2
      · cases h1
      · exact List.mem_cons_of_mem _
          (mem_dropWSsep (word_mem_collT (dropWSsep ts) h2))
    · rw [collT_sep_nws (by simpa using hc)] at h
      rcases List.mem_cons.mp h with h1 | h2
      · cases h1
      · exact List.mem_cons_of_mem _ (word_mem_collT ts h2)
termination_by ts _ _ => ts.length
decreasing_by
  all_goals simp only [List.length_cons]
  all_goals first
    | omega
    | exact Nat.lt_succ_of_le (dropWSsep_length _)

theorem word_mem_lowT {w : Str} {ts : List Tok} (h : Tok.word w ∈ lowT ts) :
    ∃ w0, Tok.word w0 ∈ ts ∧ w = toLowerL w0 := by
  obtain ⟨t, ht, hft⟩ := List.mem_map.mp h
  cases t with
  | word w0 => exact ⟨w0, ht, (Tok.word.inj hft).symm⟩
  | sep c => simp at hft

theorem toLowerL_idem (s : Str) : toLowerL (toLowerL s) = toLowerL s := by
  unfold toLowerL
  rw [List.map_map]
  exact List.map_congr_left (fun c _ => lowerChar_idem c)

/-- The lowered word patterns eliminated by the substitution table: every
pattern except `Unit` (whose replacement is itself) and `#`. -/
def badPats : List Str := (replacements.take 23).map (fun pr => toLowerL pr.1)

theorem reps_not_bad : ∀ pr ∈ wordPairs, toLowerL pr.2 ∉ badPats := by
  decide

theorem badPats_short : ∀ q ∈ badPats, q.length < 6 := by
  decide

theorem badPats_of_pairs :
    ∀ pr ∈ replacements.take 23, toLowerL pr.1 ∈ badPats := by
  intro pr hpr
  exact List.mem_map_of_mem _ hpr

theorem take23_sub_wordPairs : ∀ pr ∈ replacements.take 23, pr ∈ wordPairs := by
  decide

def WordsGood (ts : List Tok) : Prop :=
  ∀ w, Tok.word w ∈ ts → toLowerL w ∉ badPats

theorem WordsGood_tokPipe {ts : List Tok} (h : WFT ts) :
    WordsGood (tokPipe ts) := by
  intro w hw
  obtain ⟨w0, hw0, hww0⟩ := word_mem_lowT hw
  have h1 : Tok.word w0 ∈ hashPass (foldTok wordPairs ts) :=
    word_mem_collT _ hw0
  have hWFf : WFT (foldTok wordPairs ts) := WFT_foldTok wordPairs wordPairs_good h
  rw [hww0, toLowerL_idem]
  rcases word_mem_hashPass _ hWFf w0 h1 with h2 | h2
  · rcases word_mem_foldTok wordPairs h2 with h3 | ⟨_, h4⟩
    · obtain ⟨pr, hpr, hwpr⟩ := h3
      rw [hwpr]
      exact reps_not_bad pr hpr
    · intro hbad
      obtain ⟨pr, hpr, hq⟩ := List.mem_map.mp hbad
      exact h4 pr (take23_sub_wordPairs pr hpr) hq.symm
  · intro hbad
    have := badPats_short _ hbad
    have hlen : (toLowerL w0).length = w0.length := List.length_map _ _
    omega

/-- No `#` separator directly between two word runs. -/
def noWHW : List Tok → Bool
  | Tok.word _ :: Tok.sep c :: Tok.word b :: ts =>
    if c = '#' then false else noWHW (Tok.sep c :: Tok.word b :: ts)
  | _ :: ts => noWHW ts
  | [] => true

theorem noWHW_nil : noWHW [] = true := by simp [noWHW]

theorem noWHW_sep (c : Char) (ts : List Tok) :
    noWHW (Tok.sep c :: ts) = noWHW ts := by
  cases ts with
  | nil => simp [noWHW]
  | cons t ts' => cases t <;> simp [noWHW]

theorem noWHW_word_nil (a : Str) : noWHW [Tok.word a] = true := by
  simp [noWHW]

theorem noWHW_word_word (a b : Str) (ts : List Tok) :
    noWHW (Tok.word a :: Tok.word b :: ts) = noWHW (Tok.word b :: ts) := by
  simp [noWHW]

theorem noWHW_word_sep_word (a : Str) (c : Char) (b : Str) (ts : List Tok) :
    noWHW (Tok.word a :: Tok.sep c :: Tok.word b :: ts)
      = if c = '#' then false else noWHW (Tok.word b :: ts) := by
  by_cases hc : c = '#'
  · rw [noWHW, if_pos hc, if_pos hc]
  · rw [noWHW, if_neg hc, if_neg hc, noWHW_sep]

theorem noWHW_word_sep_other (a : Str) (c : Char) (ts : List Tok)
    (h : notWordHead ts) :
    noWHW (Tok.word a :: Tok.sep c :: ts) = noWHW ts := by
  cases ts with
  | nil => simp [noWHW]
  | cons t ts' =>
    cases t with
    | word b => exact absurd h (by simp [notWordHead])
    | sep d =>
      show noWHW (Tok.word a :: Tok.sep c :: Tok.sep d :: ts') = _
      rw [show noWHW (Tok.word a :: Tok.sep c :: Tok.sep d :: ts')
          = noWHW (Tok.sep c :: Tok.sep d :: ts') from by simp [noWHW],
        noWHW_sep, noWHW_sep]

theorem noWHW_word_sep_ne (a : Str) {c : Char} (hc : c ≠ '#')
    (X : List Tok) :
    noWHW (Tok.word a :: Tok.sep c :: X) = noWHW X := by
  cases X with
  | nil => rw [noWHW_word_sep_other _ _ _ (by simp [notWordHead]), noWHW_nil]
  | cons t X' =>
    cases t with
    | word b => rw [noWHW_word_sep_word, if_neg hc]
    | sep d => rw [noWHW_word_sep_other _ _ _ (by simp [notWordHead])]

def headIsWord : List Tok → Bool
  | Tok.word _ :: _ => true
  | _ => false

theorem noWHW_hashPass : ∀ (ts : List Tok), WFT ts → noWHW (hashPass ts) = true
  | [], _ => by rw [hashPass_nil, noWHW_nil]
  | Tok.sep c :: ts', h => by
    have hwf : WFT ts' := by cases h with | sep _ x => exact x
    rw [hashPass_sep, noWHW_sep]
    exact noWHW_hashPass ts' hwf
  | Tok.word a :: ts', h => by
    have hnw : notWordHead ts' := by cases h with | word _ _ x _ => exact x
    have hwf : WFT ts' := by cases h with | word _ _ _ x => exact x
    cases ts' with
    | nil => rw [hashPass_word_nil, noWHW_word_nil]
    | cons t2 ts'' =>
      cases t2 with
      | word b => exact absurd hnw (by simp [notWordHead])
      | sep c =>
        have hwf'' : WFT ts'' := by cases hwf with | sep _ x => exact x
        by_cases hch : c = '#'
        · subst hch
          cases ts'' with
          | nil =>
            rw [hashPass_word_sep _ _ _ (Or.inr (by simp [notWordHead])),
              hashPass_sep, hashPass_nil]
            rw [noWHW_word_sep_other _ _ _ (by simp [notWordHead]), noWHW_nil]
          | cons t3 ts₃ =>
            cases t3 with
            | sep d =>
              rw [hashPass_word_sep _ _ _ (Or.inr (by simp [notWordHead])),
                hashPass_sep, hashPass_sep]
              rw [noWHW_word_sep_other _ _ _ (by simp [notWordHead]),
                noWHW_sep]
              exact noWHW_hashPass ts₃
                (by cases hwf'' with | sep _ x => exact x)
            | word b =>
              have hbnw : notWordHead ts₃ := by
                cases hwf'' with | word _ _ x _ => exact x
              have hbwf : WFT ts₃ := by cases hwf'' with | word _ _ _ x => exact x
              rw [hashPass_merge]
              apply noWHW_hashPass
              refine WFT.word (by simp) ?_ hbnw hbwf
              intro e he
              have hallA : ∀ e ∈ a, isWordChar e = true := by
                cases h with | word _ x _ _ => exact x
              have hallB : ∀ e ∈ b, isWordChar e = true := by
                cases hwf'' with | word _ x _ _ => exact x
              rcases List.mem_append.mp he with he1 | he2
              · rcases List.mem_append.mp he1 with he3 | he4
                · exact hallA e he3
                · have hUnit : ∀ e ∈ "Unit".data, isWordChar e = true := by
                    decide
                  exact hUnit e he4
              · exact hallB e he2
        · rw [hashPass_word_sep _ _ _ (Or.inl hch), hashPass_sep,
            noWHW_word_sep_ne a hch]
          exact noWHW_hashPass ts'' hwf''
termination_by ts _ => ts.length
decreasing_by
  all_goals try subst_vars
  all_goals simp only [List.length_cons]
  all_goals omega

theorem hashPass_id_of_noWHW : ∀ (ts : List Tok), noWHW ts = true →
    hashPass ts = ts
  | [], _ => hashPass_nil
  | Tok.sep c :: ts, h => by
    rw [noWHW_sep] at h
    rw [hashPass_sep, hashPass_id_of_noWHW ts h]
  | [Tok.word a], _ => hashPass_word_nil a
  | Tok.word a :: Tok.word b :: ts, h => by
    rw [noWHW_word_word] at h
    rw [hashPass_word_word, hashPass_id_of_noWHW (Tok.word b :: ts) h]
  | Tok.word a :: Tok.sep c :: Tok.word b :: ts, h => by
    rw [noWHW_word_sep_word] at h
    by_cases hc : c = '#'
    · rw [if_pos hc] at h
      cases h
    · rw [if_neg hc] at h
      rw [hashPass_word_sep _ _ _ (Or.inl hc), hashPass_sep,
        hashPass_id_of_noWHW (Tok.word b :: ts) h]
  | Tok.word a :: Tok.sep c :: [], h => by
    rw [hashPass_word_sep _ _ _ (Or.inr (by simp [notWordHead])),
      hashPass_sep, hashPass_nil]
  | Tok.word a :: Tok.sep c :: Tok.sep d :: ts, h => by
    rw [noWHW_word_sep_other _ _ _ (by simp [notWordHead]), noWHW_sep] at h
    rw [hashPass_word_sep _ _ _ (Or.inr (by simp [notWordHead])),
      hashPass_sep, hashPass_id_of_noWHW (Tok.sep d :: ts) (by
        rw [noWHW_sep]; exact h)]
termination_by ts _ => ts.length
decreasing_by
  all_goals simp only [List.length_cons]
  all_goals omega

theorem noWHW_map_words (f : Tok → Tok)
    (hsep : ∀ c, f (Tok.sep c) = Tok.sep c)
    (hword : ∀ w, ∃ w', f (Tok.word w) = Tok.word w') :
    ∀ (ts : List Tok), noWHW (List.map f ts) = noWHW ts
  | [] => rfl
  | Tok.sep c :: ts => by
    rw [List.map_cons, hsep, noWHW_sep, noWHW_sep]
    exact noWHW_map_words f hsep hword ts
  | [Tok.word a] => by
    obtain ⟨a', ha⟩ := hword a
    rw [List.map_cons, ha, List.map_nil, noWHW_word_nil, noWHW_word_nil]
  | Tok.word a :: Tok.word b :: ts => by
    obtain ⟨a', ha⟩ := hword a
    rw [List.map_cons, ha, List.map_cons]
    obtain ⟨b', hb⟩ := hword b
    rw [hb, noWHW_word_word, noWHW_word_word, ← hb, ← List.map_cons]
    exact noWHW_map_words f hsep hword (Tok.word b :: ts)
  | Tok.word a :: Tok.sep c :: Tok.word b :: ts => by
    obtain ⟨a', ha⟩ := hword a
    obtain ⟨b', hb⟩ := hword b
    rw [List.map_cons, ha, List.map_cons, hsep, List.map_cons, hb,
      noWHW_word_sep_word, noWHW_word_sep_word, ← hb, ← List.map_cons]
    by_cases hc : c = '#'
    · rw [if_pos hc, if_pos hc]
    · rw [if_neg hc, if_neg hc]
      exact noWHW_map_words f hsep hword (Tok.word b :: ts)
  | Tok.word a :: Tok.sep c :: [] => by
    obtain ⟨a', ha⟩ := hword a
    rw [List.map_cons, ha, List.map_cons, hsep, List.map_nil,
      noWHW_word_sep_other _ _ _ (by simp [notWordHead]),
      noWHW_word_sep_other _ _ _ (by simp [notWordHead])]
  | Tok.word a :: Tok.sep c :: Tok.sep d :: ts => by
    obtain ⟨a', ha⟩ := hword a
    rw [List.map_cons, ha, List.map_cons, hsep, List.map_cons, hsep,
      noWHW_word_sep_other _ _ _ (by simp [notWordHead]),
      noWHW_word_sep_other _ _ _ (by simp [notWordHead]),
      noWHW_sep, noWHW_sep]
    exact noWHW_map_words f hsep hword ts
termination_by ts => ts.length
decreasing_by
  all_goals simp only [List.length_cons]
  all_goals omega

def headIsWSsep : List Tok → Bool
  | Tok.sep c :: _ => pyIsSpace c
  | _ => false

/-- Single-spaced separators: every whitespace separator is exactly `' '`
and is not followed by another whitespace separator. -/
def SSt : List Tok → Bool
  | [] => true
  | Tok.word _ :: ts => SSt ts
  | Tok.sep c :: ts =>
    (!pyIsSpace c || (decide (c = ' ') && !headIsWSsep ts)) && SSt ts

theorem SSt_word (w : Str) (ts : List Tok) :
    SSt (Tok.word w :: ts) = SSt ts := rfl

theorem SSt_sep (c : Char) (ts : List Tok) :
    SSt (Tok.sep c :: ts) =
      ((!pyIsSpace c || (decide (c = ' ') && !headIsWSsep ts)) && SSt ts) := rfl

theorem headIsWSsep_dropWSsep : ∀ ts : List Tok,
    headIsWSsep (dropWSsep ts) = false
  | [] => rfl
  | Tok.word _ :: _ => rfl
  | Tok.sep c :: ts => by
    cases hc : pyIsSpace c with
    | true =>
      rw [dropWSsep, if_pos hc]
      exact headIsWSsep_dropWSsep ts
    | false =>
      rw [dropWSsep, if_neg (by simp [hc])]
      simp [headIsWSsep, hc]

theorem headIsWSsep_collT : ∀ {ts : List Tok}, headIsWSsep ts = false →
    headIsWSsep (collT ts) = false := by
  intro ts h
  cases ts with
  | nil => rw [collT_nil]; rfl
  | cons t ts' =>
    cases t with
    | word w => rw [collT_word]; rfl
    | sep c =>
      have hc : pyIsSpace c = false := h
      rw [collT_sep_nws hc]
      simpa [headIsWSsep] using hc

theorem SSt_collT : ∀ ts : List Tok, SSt (collT ts) = true
  | [] => by rw [collT_nil]; rfl
  | Tok.word w :: ts => by
    rw [collT_word, SSt_word]
    exact SSt_collT ts
  | Tok.sep c :: ts => by
    cases hc : pyIsSpace c with
    | true =>
      rw [collT_sep_ws hc, SSt_sep]
      have h1 : headIsWSsep (collT (dropWSsep ts)) = false :=
        headIsWSsep_collT (headIsWSsep_dropWSsep ts)
      rw [SSt_collT (dropWSsep ts), h1]
      decide
    | false =>
      rw [collT_sep_nws hc, SSt_sep, SSt_collT ts, hc]
      simp
termination_by ts => ts.length
decreasing_by
  all_goals simp only [List.length_cons]
  all_goals first
    | omega
    | exact Nat.lt_succ_of_le (dropWSsep_length _)

theorem dropWSsep_id : ∀ {ts : List Tok}, headIsWSsep ts = false →
    dropWSsep ts = ts := by
  intro ts h
  cases ts with
  | nil => rfl
  | cons t ts' =>
    cases t with
    | word w => rfl
    | sep c =>
      have hc : pyIsSpace c = false := h
      rw [dropWSsep, if_neg (by simp [hc])]

theorem collT_id_of_SSt : ∀ ts : List Tok, SSt ts = true → collT ts = ts
  | [], _ => collT_nil
  | Tok.word w :: ts, h => by
    rw [SSt_word] at h
    rw [collT_word, collT_id_of_SSt ts h]
  | Tok.sep c :: ts, h => by
    rw [SSt_sep] at h
    cases hc : pyIsSpace c with
    | true =>
      rw [hc] at h
      simp only [Bool.not_true, Bool.false_or, Bool.and_eq_true,
        decide_eq_true_eq, Bool.not_eq_true'] at h
      obtain ⟨⟨hsp, hhd⟩, hts⟩ := h
      rw [collT_sep_ws hc, dropWSsep_id hhd, collT_id_of_SSt ts hts, hsp]
    | false =>
      rw [hc] at h
      simp only [Bool.not_false, Bool.true_or, Bool.true_and] at h
      rw [collT_sep_nws hc, collT_id_of_SSt ts h]
termination_by ts _ => ts.length
decreasing_by
  all_goals try subst_vars
  all_goals simp only [List.length_cons]
  all_goals omega

theorem headIsWSsep_map (f : Tok → Tok)
    (hsep : ∀ c, f (Tok.sep c) = Tok.sep c)
    (hword : ∀ w, ∃ w', f (Tok.word w) = Tok.word w')
    (ts : List Tok) : headIsWSsep (List.map f ts) = headIsWSsep ts := by
  cases ts with
  | nil => rfl
  | cons t ts' =>
    cases t with
    | word w =>
      obtain ⟨w', hw⟩ := hword w
      rw [List.map_cons, hw]
      rfl
    | sep c =>
      rw [List.map_cons, hsep]
      rfl

theorem SSt_map_words (f : Tok → Tok)
    (hsep : ∀ c, f (Tok.sep c) = Tok.sep c)
    (hword : ∀ w, ∃ w', f (Tok.word w) = Tok.word w') :
    ∀ ts : List Tok, SSt (List.map f ts) = SSt ts
  | [] => rfl
  | Tok.word w :: ts => by
    obtain ⟨w', hw⟩ := hword w
    rw [List.map_cons, hw, SSt_word, SSt_word]
    exact SSt_map_words f hsep hword ts
  | Tok.sep c :: ts => by
    rw [List.map_cons, hsep, SSt_sep, SSt_sep,
      headIsWSsep_map f hsep hword ts, SSt_map_words f hsep hword ts]

theorem headIsWSsep_lowT (ts : List Tok) :
    headIsWSsep (lowT ts) = headIsWSsep ts := by
  cases ts with
  | nil => rfl
  | cons t ts' =>
    cases t with
    | word w => rfl
    | sep c =>
      show headIsWSsep (Tok.sep (lowerChar c) :: lowT ts') = _
      show pyIsSpace (lowerChar c) = pyIsSpace c
      exact pyIsSpace_lowerChar c

theorem SSt_lowT : ∀ {ts : List Tok}, SSt ts = true → SSt (lowT ts) = true := by
  intro ts h
  induction ts with
  | nil => rfl
  | cons t ts' ih =>
    cases t with
    | word w =>
      rw [SSt_word] at h
      show SSt (Tok.word (toLowerL w) :: lowT ts') = true
      rw [SSt_word]
      exact ih h
    | sep c =>
      rw [SSt_sep] at h
      show SSt (Tok.sep (lowerChar c) :: lowT ts') = true
      rw [SSt_sep, pyIsSpace_lowerChar, headIsWSsep_lowT]
      cases hc : pyIsSpace c with
      | false =>
        rw [hc] at h
        simp only [Bool.not_false, Bool.true_or, Bool.true_and] at h ⊢
        exact ih h
      | true =>
        rw [hc] at h
        simp only [Bool.not_true, Bool.false_or, Bool.and_eq_true,
          decide_eq_true_eq, Bool.not_eq_true'] at h ⊢
        obtain ⟨⟨hsp, hhd⟩, hts⟩ := h
        subst hsp
        exact ⟨⟨by decide, hhd⟩, ih hts⟩

theorem lowerChar_eq_hash_iff (c : Char) : (lowerChar c = '#') ↔ (c = '#') := by
  constructor
  · exact eq_hash_of_lowerChar_eq_hash
  · intro h; rw [h]; decide

theorem noWHW_lowT : ∀ ts : List Tok, noWHW (lowT ts) = noWHW ts
  | [] => rfl
  | Tok.sep c :: ts => by
    show noWHW (Tok.sep (lowerChar c) :: lowT ts) = _
    rw [noWHW_sep, noWHW_sep]
    exact noWHW_lowT ts
  | [Tok.word a] => by
    show noWHW [Tok.word (toLowerL a)] = _
    rw [noWHW_word_nil, noWHW_word_nil]
  | Tok.word a :: Tok.word b :: ts => by
    show noWHW (Tok.word (toLowerL a) :: Tok.word (toLowerL b) :: lowT ts) = _
    rw [noWHW_word_word, noWHW_word_word,
      show Tok.word (toLowerL b) :: lowT ts = lowT (Tok.word b :: ts) from rfl]
    exact noWHW_lowT (Tok.word b :: ts)
  | Tok.word a :: Tok.sep c :: Tok.word b :: ts => by
    show noWHW (Tok.word (toLowerL a) :: Tok.sep (lowerChar c)
      :: Tok.word (toLowerL b) :: lowT ts) = _
    rw [noWHW_word_sep_word, noWHW_word_sep_word]
    by_cases hc : c = '#'
    · rw [if_pos hc, if_pos ((lowerChar_eq_hash_iff c).mpr hc)]
    · rw [if_neg hc, if_neg (fun hl => hc ((lowerChar_eq_hash_iff c).mp hl)),
        show Tok.word (toLowerL b) :: lowT ts = lowT (Tok.word b :: ts) from rfl]
      exact noWHW_lowT (Tok.word b :: ts)
  | Tok.word a :: Tok.sep c :: [] => by
    show noWHW [Tok.word (toLowerL a), Tok.sep (lowerChar c)] = _
    rw [noWHW_word_sep_other _ _ _ (by simp [notWordHead]),
      noWHW_word_sep_other _ _ _ (by simp [notWordHead])]
  | Tok.word a :: Tok.sep c :: Tok.sep d :: ts => by
    show noWHW (Tok.word (toLowerL a) :: Tok.sep (lowerChar c)
      :: Tok.sep (lowerChar d) :: lowT ts) = _
    rw [noWHW_word_sep_other _ _ _ (by simp [notWordHead]),
      noWHW_word_sep_other _ _ _ (by simp [notWordHead]),
      noWHW_sep, noWHW_sep]
    exact noWHW_lowT ts
termination_by ts => ts.length
decreasing_by
  all_goals simp only [List.length_cons]
  all_goals omega

theorem noWHW_dropWSsep : ∀ {ts : List Tok}, noWHW ts = true →
    noWHW (dropWSsep ts) = true := by
  intro ts h
  induction ts with
  | nil => exact h
  | cons t ts' ih =>
    cases t with
    | word w => exact h
    | sep c =>
      rw [noWHW_sep] at h
      cases hc : pyIsSpace c with
      | true =>
        rw [dropWSsep, if_pos hc]
        exact ih h
      | false =>
        rw [dropWSsep, if_neg (by simp [hc]), noWHW_sep]
        exact h

theorem noWHW_collT : ∀ ts : List Tok, noWHW ts = true →
    noWHW (collT ts) = true
  | [], _ => by rw [collT_nil]; rfl
  | Tok.sep c :: ts, h => by
    rw [noWHW_sep] at h
    cases hc : pyIsSpace c with
    | true =>
      rw [collT_sep_ws hc, noWHW_sep]
      exact noWHW_collT (dropWSsep ts) (noWHW_dropWSsep h)
    | false =>
      rw [collT_sep_nws hc, noWHW_sep]
      exact noWHW_collT ts h
  | [Tok.word a], _ => by
    rw [collT_word, collT_nil]
    exact noWHW_word_nil a
  | Tok.word a :: Tok.word b :: ts, h => by
    rw [noWHW_word_word] at h
    rw [collT_word, collT_word, noWHW_word_word, ← collT_word]
    exact noWHW_collT (Tok.word b :: ts) h
  | Tok.word a :: Tok.sep c :: ts, h => by
    by_cases hch : c = '#'
    · subst hch
      have hcs : pyIsSpace '#' = false := by decide
      rw [collT_word, collT_sep_nws hcs]
      cases ts with
      | nil =>
        rw [collT_nil, noWHW_word_sep_other _ _ _ (by simp [notWordHead])]
        rfl
      | cons u ts' =>
        cases u with
        | word b =>
          rw [noWHW_word_sep_word, if_pos rfl] at h
          cases h
        | sep d =>
          rw [noWHW_word_sep_other _ _ _ (by simp [notWordHead])] at h
          rw [noWHW_word_sep_other _ _ _
            (notWordHead_collT (by simp [notWordHead]))]
          exact noWHW_collT (Tok.sep d :: ts') h
    · rw [noWHW_word_sep_ne a hch] at h
      rw [collT_word]
      cases hc : pyIsSpace c with
      | true =>
        rw [collT_sep_ws hc, noWHW_word_sep_ne a (by decide)]
        exact noWHW_collT (dropWSsep ts) (noWHW_dropWSsep h)
      | false =>
        rw [collT_sep_nws hc, noWHW_word_sep_ne a hch]
        exact noWHW_collT ts h
termination_by ts _ => ts.length
decreasing_by
  all_goals try subst_vars
  all_goals simp only [List.length_cons]
  all_goals first
    | omega
    | exact Nat.lt_of_le_of_lt (dropWSsep_length _) (by omega)

theorem lowT_idem (ts : List Tok) : lowT (lowT ts) = lowT ts := by
  induction ts with
  | nil => rfl
  | cons t ts' ih =>
    cases t with
    | word w =>
      show Tok.word (toLowerL (toLowerL w)) :: lowT (lowT ts')
        = Tok.word (toLowerL w) :: lowT ts'
      rw [toLowerL_idem, ih]
    | sep c =>
      show Tok.sep (lowerChar (lowerChar c)) :: lowT (lowT ts')
        = Tok.sep (lowerChar c) :: lowT ts'
      rw [lowerChar_idem, ih]

theorem lowT_mapW_self {p r : Str} (hpr : toLowerL r = toLowerL p)
    (ts : List Tok) : lowT (mapW p r ts) = lowT ts := by
  induction ts with
  | nil => rfl
  | cons t ts' ih =>
    cases t with
    | word w =>
      show Tok.word (toLowerL (if toLowerL w = toLowerL p then r else w))
        :: lowT (mapW p r ts') = Tok.word (toLowerL w) :: lowT ts'
      rw [ih]
      by_cases hw : toLowerL w = toLowerL p
      · rw [if_pos hw, hpr, hw]
      · rw [if_neg hw]
    | sep c =>
      show Tok.sep (lowerChar c) :: lowT (mapW p r ts')
        = Tok.sep (lowerChar c) :: lowT ts'
      rw [ih]

theorem noWHW_mapW (p r : Str) (ts : List Tok) :
    noWHW (mapW p r ts) = noWHW ts := by
  unfold mapW
  exact noWHW_map_words _ (fun _ => rfl) (fun w => ⟨_, rfl⟩) ts

theorem SSt_mapW (p r : Str) (ts : List Tok) :
    SSt (mapW p r ts) = SSt ts := by
  unfold mapW
  exact SSt_map_words _ (fun _ => rfl) (fun w => ⟨_, rfl⟩) ts

theorem foldTok_id_of {prs : List (Str × Str)} {ts : List Tok}
    (h : ∀ pr ∈ prs, NoWord pr.1 ts) : foldTok prs ts = ts := by
  induction prs with
  | nil => rfl
  | cons pr prs' ih =>
    unfold foldTok
    rw [List.foldl_cons, mapW_id (h pr (List.mem_cons_self pr prs'))]
    exact ih (fun q hq => h q (List.mem_cons_of_mem pr hq))

theorem wordPairs_split :
    wordPairs = replacements.take 23 ++ [("Unit".data, "Unit".data)] := by
  decide

/-- A second run of the token pipeline changes nothing: the output words avoid
every abbreviation pattern (only the `Unit` pattern can fire, and it maps
`unit`-words to `Unit`, which lowercasing undoes), no `#` stands between two
words, and the separators are already single-spaced. -/
theorem tokPipe_idem {ts : List Tok} (h : WFT ts) :
    tokPipe (tokPipe ts) = tokPipe ts := by
  have hwg : WordsGood (tokPipe ts) := WordsGood_tokPipe h
  have h23 : foldTok (replacements.take 23) (tokPipe ts) = tokPipe ts := by
    apply foldTok_id_of
    intro pr hpr w hw heq
    exact hwg w hw (heq ▸ badPats_of_pairs pr hpr)
  have hsplit : foldTok wordPairs (tokPipe ts)
      = mapW "Unit".data "Unit".data (tokPipe ts) := by
    rw [wordPairs_split]
    show List.foldl (fun ts pr => mapW pr.1 pr.2 ts) (tokPipe ts)
      (replacements.take 23 ++ [("Unit".data, "Unit".data)]) = _
    rw [List.foldl_append]
    show List.foldl _ (foldTok (replacements.take 23) (tokPipe ts)) _ = _
    rw [h23, List.foldl_cons, List.foldl_nil]
  have hn1 : noWHW (tokPipe ts) = true := by
    show noWHW (lowT (collT (hashPass (foldTok wordPairs ts)))) = true
    rw [noWHW_lowT]
    exact noWHW_collT _ (noWHW_hashPass _
      (WFT_foldTok wordPairs wordPairs_good h))
  have hs1 : SSt (tokPipe ts) = true := by
    show SSt (lowT (collT (hashPass (foldTok wordPairs ts)))) = true
    exact SSt_lowT (SSt_collT _)
  show lowT (collT (hashPass (foldTok wordPairs (tokPipe ts)))) = tokPipe ts
  rw [hsplit,
    hashPass_id_of_noWHW _ (by rw [noWHW_mapW]; exact hn1),
    collT_id_of_SSt _ (by rw [SSt_mapW]; exact hs1),
    lowT_mapW_self rfl]
  show lowT (lowT (collT (hashPass (foldTok wordPairs ts)))) = _
  exact lowT_idem _

def NoPunctT (ts : List Tok) : Prop :=
  ∀ c : Char, Tok.sep c ∈ ts → c ≠ ',' ∧ c ≠ '.'

theorem sep_mem_flatT : ∀ {ts : List Tok} {c : Char},
    Tok.sep c ∈ ts → c ∈ flatT ts := by
  intro ts
  induction ts with
  | nil => intro c h; cases h
  | cons t ts' ih =>
    intro c h
    cases t with
    | word w =>
      show c ∈ w ++ flatT ts'
      rcases List.mem_cons.mp h with h1 | h1
      · cases h1
      · exact List.mem_append_right w (ih h1)
    | sep d =>
      show c ∈ d :: flatT ts'
      rcases List.mem_cons.mp h with h1 | h1
      · rw [show c = d from by injection h1]
        exact List.mem_cons_self d _
      · exact List.mem_cons_of_mem d (ih h1)

theorem word_mem_WFT : ∀ {ts : List Tok} {w : Str}, WFT ts →
    Tok.word w ∈ ts → ∀ c ∈ w, isWordChar c = true := by
  intro ts
  induction ts with
  | nil => intro w _ h; cases h
  | cons t ts' ih =>
    intro w hwf h
    rcases List.mem_cons.mp h with h1 | h1
    · cases hwf with
      | sep _ _ => cases h1
      | word _ hall _ _ =>
        injection h1 with hww
        rw [hww]
        exact hall
    · cases hwf with
      | sep _ hwf' => exact ih hwf' h1
      | word _ _ _ hwf' => exact ih hwf' h1

theorem mem_flatT : ∀ {ts : List Tok} {c : Char}, c ∈ flatT ts →
    (∃ w, Tok.word w ∈ ts ∧ c ∈ w) ∨ Tok.sep c ∈ ts := by
  intro ts
  induction ts with
  | nil => intro c h; cases h
  | cons t ts' ih =>
    intro c h
    cases t with
    | word w =>
      rcases List.mem_append.mp (h : c ∈ w ++ flatT ts') with h1 | h1
      · exact Or.inl ⟨w, List.mem_cons_self _ _, h1⟩
      · rcases ih h1 with ⟨v, hv, hcv⟩ | h2
        · exact Or.inl ⟨v, List.mem_cons_of_mem _ hv, hcv⟩
        · exact Or.inr (List.mem_cons_of_mem _ h2)
    | sep d =>
      rcases List.mem_cons.mp (h : c ∈ d :: flatT ts') with h1 | h1
      · exact Or.inr (h1 ▸ List.mem_cons_self _ _)
      · rcases ih h1 with ⟨v, hv, hcv⟩ | h2
        · exact Or.inl ⟨v, List.mem_cons_of_mem _ hv, hcv⟩
        · exact Or.inr (List.mem_cons_of_mem _ h2)

theorem pySubPunct_id {s : Str} (h : ∀ c ∈ s, c ≠ ',' ∧ c ≠ '.') :
    pySubPunct s = s := by
  induction s with
  | nil => rfl
  | cons c cs ih =>
    obtain ⟨h1, h2⟩ := h c (List.mem_cons_self c cs)
    show (if c = ',' || c = '.' then ' ' else c) :: pySubPunct cs = c :: cs
    rw [if_neg (by simp [h1, h2]), ih (fun e he => h e (List.mem_cons_of_mem c he))]

theorem sep_mem_mapW {p r : Str} {c : Char} {ts : List Tok}
    (h : Tok.sep c ∈ mapW p r ts) : Tok.sep c ∈ ts := by
  obtain ⟨t, ht, hft⟩ := List.mem_map.mp h
  cases t with
  | word w => cases hft
  | sep d =>
    have : d = c := by injection hft
    exact this ▸ ht

theorem sep_mem_foldTok {c : Char} : ∀ (prs : List (Str × Str)) {ts : List Tok},
    Tok.sep c ∈ foldTok prs ts → Tok.sep c ∈ ts := by
  intro prs
  induction prs with
  | nil => intro ts h; exact h
  | cons pr prs' ih =>
    intro ts h
    have h2 : Tok.sep c ∈ foldTok prs' (mapW pr.1 pr.2 ts) := h
    exact sep_mem_mapW (ih h2)

theorem sep_mem_hashPass : ∀ {ts : List Tok} {c : Char},
    Tok.sep c ∈ hashPass ts → Tok.sep c ∈ ts
  | [], _, h => by rw [hashPass_nil] at h; cases h
  | Tok.sep d :: ts, c, h => by
    rw [hashPass_sep] at h
    rcases List.mem_cons.mp h with h1 | h1
    · exact h1 ▸ List.mem_cons_self _ _
    · exact List.mem_cons_of_mem _ (sep_mem_hashPass h1)
  | [Tok.word a], c, h => by
    rw [hashPass_word_nil] at h
    rcases List.mem_cons.mp h with h1 | h1
    · cases h1
    · cases h1
  | Tok.word a :: Tok.word b :: ts, c, h => by
    rw [hashPass_word_word] at h
    rcases List.mem_cons.mp h with h1 | h1
    · cases h1
    · exact List.mem_cons_of_mem _ (sep_mem_hashPass h1)
  | Tok.word a :: Tok.sep d :: [], c, h => by
    rw [hashPass_word_sep _ _ _ (Or.inr (by simp [notWordHead])),
      hashPass_sep, hashPass_nil] at h
    rcases List.mem_cons.mp h with h1 | h1
    · cases h1
    · exact List.mem_cons_of_mem _ h1
  | Tok.word a :: Tok.sep d :: Tok.sep e :: ts, c, h => by
    rw [hashPass_word_sep _ _ _ (Or.inr (by simp [notWordHead])),
      hashPass_sep] at h
    rcases List.mem_cons.mp h with h1 | h1
    · cases h1
    · rcases List.mem_cons.mp h1 with h2 | h2
      · exact h2 ▸ List.mem_cons_of_mem _ (List.mem_cons_self _ _)
      · exact List.mem_cons_of_mem _ (List.mem_cons_of_mem _
          (sep_mem_hashPass h2))
  | Tok.word a :: Tok.sep d :: Tok.word b :: ts, c, h => by
    by_cases hd : d = '#'
    · subst hd
      rw [hashPass_merge] at h
      have h2 := sep_mem_hashPass h
      rcases List.mem_cons.mp h2 with h3 | h3
      · cases h3
      · exact List.mem_cons_of_mem _ (List.mem_cons_of_mem _
          (List.mem_cons_of_mem _ h3))
    · rw [hashPass_word_sep _ _ _ (Or.inl hd), hashPass_sep] at h
      rcases List.mem_cons.mp h with h1 | h1
      · cases h1
      · rcases List.mem_cons.mp h1 with h2 | h2
        · exact h2 ▸ List.mem_cons_of_mem _ (List.mem_cons_self _ _)
        · exact List.mem_cons_of_mem _ (List.mem_cons_of_mem _
            (sep_mem_hashPass h2))
termination_by ts _ => ts.length
decreasing_by
  all_goals try subst_vars
  all_goals simp only [List.length_cons]
  all_goals omega

theorem sep_mem_collT : ∀ {ts : List Tok} {c : Char},
    Tok.sep c ∈ collT ts → c = ' ' ∨ Tok.sep c ∈ ts
  | [], _, h => by rw [collT_nil] at h; cases h
  | Tok.word w :: ts, c, h => by
    rw [collT_word] at h
    rcases List.mem_cons.mp h with h1 | h1
    · cases h1
    · exact (sep_mem_collT h1).imp id (List.mem_cons_of_mem _)
  | Tok.sep d :: ts, c, h => by
    cases hd : pyIsSpace d with
    | true =>
      rw [collT_sep_ws hd] at h
      rcases List.mem_cons.mp h with h1 | h1
      · exact Or.inl (by injection h1)
      · rcases sep_mem_collT h1 with h2 | h2
        · exact Or.inl h2
        · exact Or.inr (List.mem_cons_of_mem _ (mem_dropWSsep h2))
    | false =>
      rw [collT_sep_nws hd] at h
      rcases List.mem_cons.mp h with h1 | h1
      · exact Or.inr (h1 ▸ List.mem_cons_self _ _)
      · exact (sep_mem_collT h1).imp id (List.mem_cons_of_mem _)
termination_by ts _ => ts.length
decreasing_by
  all_goals simp only [List.length_cons]
  all_goals first
    | omega
    | exact Nat.lt_succ_of_le (dropWSsep_length _)

theorem sep_mem_lowT {ts : List Tok} {c : Char} (h : Tok.sep c ∈ lowT ts) :
    ∃ d, Tok.sep d ∈ ts ∧ c = lowerChar d := by
  obtain ⟨t, ht, hft⟩ := List.mem_map.mp h
  cases t with
  | word w => cases hft
  | sep d => exact ⟨d, ht, by injection hft.symm⟩

theorem NoPunctT_tokPipe {ts : List Tok} (h : NoPunctT ts) :
    NoPunctT (tokPipe ts) := by
  intro c hc
  obtain ⟨d, hd, hcd⟩ := sep_mem_lowT hc
  subst hcd
  rcases sep_mem_collT hd with h1 | h1
  · subst h1
    exact ⟨by decide, by decide⟩
  · have h2 := h d (sep_mem_foldTok _ (sep_mem_hashPass h1))
    exact lowerChar_ne_punct h2.1 h2.2

theorem pySubPunct_flatT {ts : List Tok} (hwf : WFT ts) (h : NoPunctT ts) :
    pySubPunct (flatT ts) = flatT ts := by
  apply pySubPunct_id
  intro c hc
  rcases mem_flatT hc with ⟨w, hw, hcw⟩ | h1
  · exact wordChar_ne_comma (word_mem_WFT hwf hw c hcw)
  · exact h c h1

theorem headNS_of_all {s : Str} (h : ∀ c ∈ s, pyIsSpace c = false) :
    headNS s := by
  cases s with
  | nil => trivial
  | cons c cs => exact h c (List.mem_cons_self c cs)

theorem headNS_dropWhile (s : Str) : headNS (s.dropWhile pyIsSpace) := by
  induction s with
  | nil => trivial
  | cons c cs ih =>
    rw [List.dropWhile_cons]
    cases hc : pyIsSpace c with
    | true => simpa [hc] using ih
    | false =>
      rw [if_neg (by simp [hc])]
      exact hc

theorem dropWhile_exists_append (s : Str) :
    ∃ t, t ++ s.dropWhile pyIsSpace = s := by
  induction s with
  | nil => exact ⟨[], rfl⟩
  | cons c cs ih =>
    rw [List.dropWhile_cons]
    cases hc : pyIsSpace c with
    | true =>
      obtain ⟨t, ht⟩ := ih
      exact ⟨c :: t, by simp [ht]⟩
    | false => exact ⟨[], by simp⟩

theorem dropWhile_id {s : Str} (h : headNS s) : s.dropWhile pyIsSpace = s := by
  cases s with
  | nil => rfl
  | cons c cs =>
    rw [List.dropWhile_cons]
    have hc : pyIsSpace c = false := h
    simp [hc]

theorem pyStrip_id {s : Str} (h1 : headNS s) (h2 : headNS s.reverse) :
    pyStrip s = s := by
  unfold pyStrip
  rw [dropWhile_id h1, dropWhile_id h2, List.reverse_reverse]

theorem headNS_of_eq_append {A X u : Str} (hA : headNS A) (he : A = X ++ u) :
    headNS X := by
  cases X with
  | nil => trivial
  | cons c r =>
    rw [he] at hA
    exact hA

theorem headNS_pyStrip (s : Str) : headNS (pyStrip s) := by
  obtain ⟨u, hu⟩ := dropWhile_exists_append (s.dropWhile pyIsSpace).reverse
  have hA : headNS (s.dropWhile pyIsSpace) := headNS_dropWhile s
  apply headNS_of_eq_append hA
  have h2 := congrArg List.reverse hu
  rw [List.reverse_append, List.reverse_reverse] at h2
  exact h2.symm

theorem headNS_pyStrip_rev (s : Str) : headNS (pyStrip s).reverse := by
  show headNS (((s.dropWhile pyIsSpace).reverse.dropWhile pyIsSpace).reverse).reverse
  rw [List.reverse_reverse]
  exact headNS_dropWhile _

def HeadOK : List Tok → Prop
  | Tok.sep c :: _ => pyIsSpace c = false
  | _ => True

def LastOK : List Tok → Prop
  | [] => True
  | [Tok.word _] => True
  | [Tok.sep c] => pyIsSpace c = false
  | _ :: ts => LastOK ts

theorem LastOK_cons_cons (t u : Tok) (ts : List Tok) :
    LastOK (t :: u :: ts) = LastOK (u :: ts) := by
  cases t <;> cases u <;> rfl

theorem LastOK_word_congr (x y : Str) (ts : List Tok) :
    LastOK (Tok.word x :: ts) = LastOK (Tok.word y :: ts) := by
  cases ts with
  | nil => rfl
  | cons u ts' => cases u <;> rfl

theorem HeadOK_map (f : Tok → Tok)
    (hsep : ∀ c, ∃ d, f (Tok.sep c) = Tok.sep d ∧ pyIsSpace d = pyIsSpace c)
    (hword : ∀ w, ∃ w', f (Tok.word w) = Tok.word w') {ts : List Tok}
    (h : HeadOK ts) : HeadOK (List.map f ts) := by
  cases ts with
  | nil => trivial
  | cons t ts' =>
    cases t with
    | word w =>
      obtain ⟨w', hw⟩ := hword w
      rw [List.map_cons, hw]
      trivial
    | sep c =>
      obtain ⟨d, hd, hdc⟩ := hsep c
      rw [List.map_cons, hd]
      show pyIsSpace d = false
      rw [hdc]
      exact h

theorem LastOK_map (f : Tok → Tok)
    (hsep : ∀ c, ∃ d, f (Tok.sep c) = Tok.sep d ∧ pyIsSpace d = pyIsSpace c)
    (hword : ∀ w, ∃ w', f (Tok.word w) = Tok.word w') :
    ∀ ts : List Tok, LastOK ts → LastOK (List.map f ts) := by
  intro ts
  induction ts with
  | nil => exact fun _ => trivial
  | cons t rest ih =>
    intro h
    cases rest with
    | nil =>
      cases t with
      | word w =>
        obtain ⟨w', hw⟩ := hword w
        rw [List.map_cons, List.map_nil, hw]
        trivial
      | sep c =>
        obtain ⟨d, hd, hdc⟩ := hsep c
        rw [List.map_cons, List.map_nil, hd]
        show pyIsSpace d = false
        rw [hdc]
        exact h
    | cons u ts' =>
      rw [LastOK_cons_cons] at h
      rw [List.map_cons, List.map_cons, LastOK_cons_cons, ← List.map_cons]
      exact ih h

theorem HeadOK_mapW {p r : Str} {ts : List Tok} (h : HeadOK ts) :
    HeadOK (mapW p r ts) := by
  unfold mapW
  exact HeadOK_map _ (fun c => ⟨c, rfl, rfl⟩) (fun w => ⟨_, rfl⟩) h

theorem LastOK_mapW {p r : Str} {ts : List Tok} (h : LastOK ts) :
    LastOK (mapW p r ts) := by
  unfold mapW
  exact LastOK_map _ (fun c => ⟨c, rfl, rfl⟩) (fun w => ⟨_, rfl⟩) ts h

theorem HeadOK_lowT {ts : List Tok} (h : HeadOK ts) : HeadOK (lowT ts) := by
  unfold lowT
  exact HeadOK_map _ (fun c => ⟨lowerChar c, rfl, pyIsSpace_lowerChar c⟩)
    (fun w => ⟨_, rfl⟩) h

theorem LastOK_lowT {ts : List Tok} (h : LastOK ts) : LastOK (lowT ts) := by
  unfold lowT
  exact LastOK_map _ (fun c => ⟨lowerChar c, rfl, pyIsSpace_lowerChar c⟩)
    (fun w => ⟨_, rfl⟩) ts h

theorem HeadOK_foldTok (prs : List (Str × Str)) :
    ∀ {ts : List Tok}, HeadOK ts → HeadOK (foldTok prs ts) := by
  induction prs with
  | nil => exact fun h => h
  | cons pr prs' ih =>
    intro ts h
    exact ih (HeadOK_mapW h)

theorem LastOK_foldTok (prs : List (Str × Str)) :
    ∀ {ts : List Tok}, LastOK ts → LastOK (foldTok prs ts) := by
  induction prs with
  | nil => exact fun h => h
  | cons pr prs' ih =>
    intro ts h
    exact ih (LastOK_mapW h)

theorem hashPass_word_head : ∀ (a : Str) (ts : List Tok),
    ∃ b ts', hashPass (Tok.word a :: ts) = Tok.word b :: ts'
  | a, [] => ⟨a, [], hashPass_word_nil a⟩
  | a, Tok.word b :: ts => ⟨a, _, hashPass_word_word a b ts⟩
  | a, Tok.sep c :: [] =>
    ⟨a, _, hashPass_word_sep a c [] (Or.inr (by simp [notWordHead]))⟩
  | a, Tok.sep c :: Tok.sep d :: ts =>
    ⟨a, _, hashPass_word_sep a c _ (Or.inr (by simp [notWordHead]))⟩
  | a, Tok.sep c :: Tok.word b :: ts => by
    by_cases hc : c = '#'
    · subst hc
      obtain ⟨b', ts', hb⟩ :=
        hashPass_word_head (a ++ "Unit".data ++ b) ts
      exact ⟨b', ts', by rw [hashPass_merge, hb]⟩
    · exact ⟨a, _, hashPass_word_sep a c _ (Or.inl hc)⟩
termination_by _ ts => ts.length
decreasing_by
  all_goals try subst_vars
  all_goals simp only [List.length_cons]
  all_goals omega

theorem hashPass_ne_nil : ∀ {ts : List Tok}, ts ≠ [] → hashPass ts ≠ [] := by
  intro ts h
  cases ts with
  | nil => exact absurd rfl h
  | cons t ts' =>
    cases t with
    | sep c => rw [hashPass_sep]; exact List.cons_ne_nil _ _
    | word a =>
      obtain ⟨b, ts'', hb⟩ := hashPass_word_head a ts'
      rw [hb]
      exact List.cons_ne_nil _ _

theorem HeadOK_hashPass : ∀ {ts : List Tok}, HeadOK ts →
    HeadOK (hashPass ts) := by
  intro ts h
  cases ts with
  | nil => rw [hashPass_nil]; trivial
  | cons t ts' =>
    cases t with
    | sep c => rw [hashPass_sep]; exact h
    | word a =>
      obtain ⟨b, ts'', hb⟩ := hashPass_word_head a ts'
      rw [hb]
      trivial

theorem LastOK_cons_of_ne (t : Tok) {l : List Tok} (hl : l ≠ []) :
    LastOK (t :: l) = LastOK l := by
  cases l with
  | nil => exact absurd rfl hl
  | cons u l' => exact LastOK_cons_cons t u l'

theorem LastOK_hashPass : ∀ (ts : List Tok), LastOK ts → LastOK (hashPass ts)
  | [], _ => by rw [hashPass_nil]; trivial
  | [Tok.sep c], h => by
    rw [hashPass_sep, hashPass_nil]
    exact h
  | [Tok.word a], _ => by
    rw [hashPass_word_nil]
    trivial
  | Tok.sep c :: u :: ts, h => by
    rw [LastOK_cons_cons] at h
    rw [hashPass_sep,
      LastOK_cons_of_ne _ (hashPass_ne_nil (List.cons_ne_nil u ts))]
    exact LastOK_hashPass (u :: ts) h
  | Tok.word a :: Tok.word b :: ts, h => by
    rw [LastOK_cons_cons] at h
    rw [hashPass_word_word,
      LastOK_cons_of_ne _ (hashPass_ne_nil (List.cons_ne_nil _ ts))]
    exact LastOK_hashPass (Tok.word b :: ts) h
  | Tok.word a :: Tok.sep c :: [], h => by
    rw [hashPass_word_sep _ _ _ (Or.inr (by simp [notWordHead])),
      hashPass_sep, hashPass_nil]
    exact h
  | Tok.word a :: Tok.sep c :: Tok.sep d :: ts, h => by
    rw [LastOK_cons_cons] at h
    rw [hashPass_word_sep _ _ _ (Or.inr (by simp [notWordHead])),
      LastOK_cons_of_ne _ (hashPass_ne_nil (List.cons_ne_nil _ _))]
    exact LastOK_hashPass (Tok.sep c :: Tok.sep d :: ts) h
  | Tok.word a :: Tok.sep c :: Tok.word b :: ts, h => by
    by_cases hc : c = '#'
    · subst hc
      rw [hashPass_merge]
      rw [LastOK_cons_cons, LastOK_cons_cons] at h
      apply LastOK_hashPass (Tok.word (a ++ "Unit".data ++ b) :: ts)
      rw [LastOK_word_congr _ b]
      exact h
    · rw [LastOK_cons_cons] at h
      rw [hashPass_word_sep _ _ _ (Or.inl hc),
        LastOK_cons_of_ne _ (hashPass_ne_nil (List.cons_ne_nil _ _))]
      exact LastOK_hashPass (Tok.sep c :: Tok.word b :: ts) h
termination_by ts _ => ts.length
decreasing_by
  all_goals try subst_vars
  all_goals simp only [List.length_cons]
  all_goals omega

theorem HeadOK_collT : ∀ {ts : List Tok}, HeadOK ts → HeadOK (collT ts) := by
  intro ts h
  cases ts with
  | nil => rw [collT_nil]; trivial
  | cons t ts' =>
    cases t with
    | word w => rw [collT_word]; trivial
    | sep c =>
      have hc : pyIsSpace c = false := h
      rw [collT_sep_nws hc]
      exact h

theorem dropWSsep_LastOK : ∀ {ts : List Tok}, ts ≠ [] → LastOK ts →
    dropWSsep ts ≠ [] ∧ LastOK (dropWSsep ts) := by
  intro ts
  induction ts with
  | nil => intro h; exact absurd rfl h
  | cons t rest ih =>
    intro _ h
    cases t with
    | word w => exact ⟨List.cons_ne_nil _ _, h⟩
    | sep c =>
      cases hc : pyIsSpace c with
      | false =>
        rw [dropWSsep, if_neg (by simp [hc])]
        exact ⟨List.cons_ne_nil _ _, h⟩
      | true =>
        rw [dropWSsep, if_pos hc]
        cases rest with
        | nil =>
          have h' : pyIsSpace c = false := h
          rw [h'] at hc
          cases hc
        | cons u rest' =>
          rw [LastOK_cons_cons] at h
          exact ih (List.cons_ne_nil u rest') h

theorem LastOK_collT : ∀ ts : List Tok, ts ≠ [] → LastOK ts →
    collT ts ≠ [] ∧ LastOK (collT ts)
  | [], h, _ => absurd rfl h
  | [Tok.word w], _, _ => by
    rw [collT_word, collT_nil]
    exact ⟨List.cons_ne_nil _ _, trivial⟩
  | [Tok.sep c], _, h => by
    have hc : pyIsSpace c = false := h
    rw [collT_sep_nws hc, collT_nil]
    exact ⟨List.cons_ne_nil _ _, h⟩
  | Tok.word w :: u :: ts, _, h => by
    rw [LastOK_cons_cons] at h
    rw [collT_word]
    obtain ⟨hne, hL⟩ := LastOK_collT (u :: ts) (List.cons_ne_nil u ts) h
    exact ⟨List.cons_ne_nil _ _, by rw [LastOK_cons_of_ne _ hne]; exact hL⟩
  | Tok.sep c :: u :: ts, _, h => by
    rw [LastOK_cons_cons] at h
    cases hc : pyIsSpace c with
    | false =>
      rw [collT_sep_nws hc]
      obtain ⟨hne, hL⟩ := LastOK_collT (u :: ts) (List.cons_ne_nil u ts) h
      exact ⟨List.cons_ne_nil _ _, by rw [LastOK_cons_of_ne _ hne]; exact hL⟩
    | true =>
      rw [collT_sep_ws hc]
      obtain ⟨hdne, hdL⟩ := dropWSsep_LastOK (List.cons_ne_nil u ts) h
      obtain ⟨hne, hL⟩ := LastOK_collT (dropWSsep (u :: ts)) hdne hdL
      exact ⟨List.cons_ne_nil _ _, by rw [LastOK_cons_of_ne _ hne]; exact hL⟩
termination_by ts _ _ => ts.length
decreasing_by
  all_goals simp only [List.length_cons]
  all_goals first
    | omega
    | exact Nat.lt_of_le_of_lt (dropWSsep_length _)
        (by simp only [List.length_cons]; omega)

theorem flatT_ne_nil : ∀ {ts : List Tok}, WFT ts → ts ≠ [] → flatT ts ≠ [] := by
  intro ts hwf hne
  cases ts with
  | nil => exact absurd rfl hne
  | cons t ts' =>
    cases t with
    | word w =>
      cases hwf with
      | word hw hall hnw hwf' =>
        show w ++ flatT ts' ≠ []
        cases w with
        | nil => exact absurd rfl hw
        | cons c w' => exact List.cons_ne_nil _ _
    | sep c => exact List.cons_ne_nil _ _

theorem headNS_append {X : Str} (hX : X ≠ []) (h : headNS X) (Y : Str) :
    headNS (X ++ Y) := by
  cases X with
  | nil => exact absurd rfl hX
  | cons c X' => exact h

theorem headNS_flatT {ts : List Tok} (hwf : WFT ts) (h : HeadOK ts) :
    headNS (flatT ts) := by
  cases ts with
  | nil => trivial
  | cons t ts' =>
    cases t with
    | word w =>
      cases hwf with
      | word hw hall _ _ =>
        cases w with
        | nil => exact absurd rfl hw
        | cons c w' =>
          show headNS (c :: (w' ++ flatT ts'))
          exact not_ws_of_word (hall c (List.mem_cons_self c w'))
    | sep c => exact h

theorem revNS_flatT : ∀ {ts : List Tok}, WFT ts → LastOK ts →
    headNS (flatT ts).reverse
  | [], _, _ => trivial
  | [Tok.word w], hwf, _ => by
    have hall : ∀ c ∈ w, isWordChar c = true := by
      cases hwf with
      | word _ hall _ _ => exact hall
    show headNS (w ++ []).reverse
    rw [List.append_nil]
    apply headNS_of_all
    intro c hc
    exact not_ws_of_word (hall c (List.mem_reverse.mp hc))
  | [Tok.sep c], _, h => by
    have hc : pyIsSpace c = false := h
    show headNS ([] ++ [c])
    exact hc
  | t :: u :: ts, hwf, h => by
    rw [LastOK_cons_cons] at h
    have hwf' : WFT (u :: ts) := by
      cases hwf with
      | sep _ hwf' => exact hwf'
      | word _ _ _ hwf' => exact hwf'
    have hne : (flatT (u :: ts)).reverse ≠ [] := by
      intro he
      exact flatT_ne_nil hwf' (List.cons_ne_nil u ts)
        (by rw [← List.reverse_reverse (flatT (u :: ts)), he]; rfl)
    cases t with
    | word w =>
      show headNS (w ++ flatT (u :: ts)).reverse
      rw [List.reverse_append]
      exact headNS_append hne (revNS_flatT hwf' h) _
    | sep c =>
      show headNS (c :: flatT (u :: ts)).reverse
      rw [List.reverse_cons]
      exact headNS_append hne (revNS_flatT hwf' h) _

theorem pyStrip_flatT {ts : List Tok} (hwf : WFT ts) (hH : HeadOK ts)
    (hL : LastOK ts) : pyStrip (flatT ts) = flatT ts :=
  pyStrip_id (headNS_flatT hwf hH) (revNS_flatT hwf hL)

theorem HeadOK_of_headNS {ts : List Tok} (h : headNS (flatT ts)) :
    HeadOK ts := by
  cases ts with
  | nil => trivial
  | cons t ts' =>
    cases t with
    | word w => trivial
    | sep c => exact h

theorem LastOK_of_revNS : ∀ {ts : List Tok}, WFT ts →
    headNS (flatT ts).reverse → LastOK ts
  | [], _, _ => trivial
  | [Tok.word w], _, _ => trivial
  | [Tok.sep c], _, h => by
    show pyIsSpace c = false
    exact h
  | t :: u :: ts, hwf, h => by
    rw [LastOK_cons_cons]
    have hwf' : WFT (u :: ts) := by
      cases hwf with
      | sep _ hwf' => exact hwf'
      | word _ _ _ hwf' => exact hwf'
    apply LastOK_of_revNS hwf'
    cases t with
    | word w =>
      have h2 : headNS ((w ++ flatT (u :: ts)).reverse) := h
      rw [List.reverse_append] at h2
      exact headNS_of_eq_append h2 rfl
    | sep c =>
      have h2 : headNS ((c :: flatT (u :: ts)).reverse) := h
      rw [List.reverse_cons] at h2
      exact headNS_of_eq_append h2 rfl

theorem mem_dropWhile {c : Char} {s : Str} (h : c ∈ s.dropWhile pyIsSpace) :
    c ∈ s := by
  obtain ⟨t, ht⟩ := dropWhile_exists_append s
  rw [← ht]
  exact List.mem_append_right t h

theorem mem_pyStrip {c : Char} {s : Str} (h : c ∈ pyStrip s) : c ∈ s := by
  unfold pyStrip at h
  rw [List.mem_reverse] at h
  have h1 := mem_dropWhile h
  rw [List.mem_reverse] at h1
  exact mem_dropWhile h1

theorem pySubPunct_chars {c : Char} {x : Str} (h : c ∈ pySubPunct x) :
    c ≠ ',' ∧ c ≠ '.' := by
  obtain ⟨a, _, hfa⟩ := List.mem_map.mp h
  by_cases ha : a = ',' ∨ a = '.'
  · rw [if_pos (by simp only [Bool.or_eq_true, decide_eq_true_eq]; exact ha)]
      at hfa
    subst hfa
    exact ⟨by decide, by decide⟩
  · push_neg at ha
    rw [if_neg (by simp [ha.1, ha.2])] at hfa
    subst hfa
    exact ha

theorem mapW_ne_nil {p r : Str} {ts : List Tok} (h : ts ≠ []) :
    mapW p r ts ≠ [] := by
  cases ts with
  | nil => exact absurd rfl h
  | cons t ts' =>
    show List.map _ (t :: ts') ≠ []
    rw [List.map_cons]
    exact List.cons_ne_nil _ _

theorem foldTok_ne_nil {prs : List (Str × Str)} :
    ∀ {ts : List Tok}, ts ≠ [] → foldTok prs ts ≠ [] := by
  induction prs with
  | nil => exact fun h => h
  | cons pr prs' ih =>
    intro ts h
    exact ih (mapW_ne_nil h)


theorem HeadOK_foldTok_eq (prs : List (Str × Str)) {ts F : List Tok}
    (hF : foldTok prs ts = F) (h : HeadOK ts) : HeadOK F :=
  hF ▸ HeadOK_foldTok prs h

theorem LastOK_foldTok_eq (prs : List (Str × Str)) {ts F : List Tok}
    (hF : foldTok prs ts = F) (h : LastOK ts) : LastOK F :=
  hF ▸ LastOK_foldTok prs h

theorem foldTok_ne_nil_eq {prs : List (Str × Str)} {ts F : List Tok}
    (hF : foldTok prs ts = F) (h : ts ≠ []) : F ≠ [] :=
  hF ▸ foldTok_ne_nil h

theorem HeadOK_tokPipe {ts : List Tok} (h : HeadOK ts) :
    HeadOK (tokPipe ts) := by
  unfold tokPipe
  obtain ⟨F, hF⟩ : ∃ F, foldTok wordPairs ts = F := ⟨_, rfl⟩
  rw [hF]
  exact HeadOK_lowT (HeadOK_collT (HeadOK_hashPass
    (HeadOK_foldTok_eq wordPairs hF h)))

theorem LastOK_tokPipe {ts : List Tok} (hne : ts ≠ []) (h : LastOK ts) :
    LastOK (tokPipe ts) := by
  unfold tokPipe
  obtain ⟨F, hF⟩ : ∃ F, foldTok wordPairs ts = F := ⟨_, rfl⟩
  rw [hF]
  have h1 : LastOK F := LastOK_foldTok_eq wordPairs hF h
  have hne1 : F ≠ [] := foldTok_ne_nil_eq hF hne
  have h2 := LastOK_hashPass _ h1
  have hne2 := hashPass_ne_nil hne1
  obtain ⟨hne3, h3⟩ := LastOK_collT _ hne2 h2
  exact LastOK_lowT h3

/-- C7: the address-component normalizer `clean_and_normalize` (punctuation
replacement, strip, whole-word abbreviation expansion, whitespace collapse,
lowercasing) is idempotent: normalizing an already-normalized component
changes nothing. -/
theorem clean_and_normalize_idem (x : Str) :
    clean_and_normalize (clean_and_normalize x) = clean_and_normalize x := by
  by_cases hx : x = []
  · subst hx
    rfl
  · rw [clean_and_normalize_eq_tokPipe x hx]
    by_cases h0 : flatT (tokPipe (toks (pyStrip (pySubPunct x)))) = []
    · rw [h0]
      rfl
    · rw [clean_and_normalize_eq_tokPipe _ h0]
      have hwf0 : WFT (toks (pyStrip (pySubPunct x))) := WFT_toks _
      have hwf1 : WFT (tokPipe (toks (pyStrip (pySubPunct x)))) :=
        WFT_tokPipe hwf0
      have hnp0 : NoPunctT (toks (pyStrip (pySubPunct x))) := by
        intro c hc
        have hmem : c ∈ pyStrip (pySubPunct x) := by
          have h1 := sep_mem_flatT hc
          rwa [flatT_toks] at h1
        exact pySubPunct_chars (mem_pyStrip hmem)
      have hnp1 := NoPunctT_tokPipe hnp0
      rw [pySubPunct_flatT hwf1 hnp1]
      have hH0 : HeadOK (toks (pyStrip (pySubPunct x))) := by
        apply HeadOK_of_headNS
        rw [flatT_toks]
        exact headNS_pyStrip _
      have hL0 : LastOK (toks (pyStrip (pySubPunct x))) := by
        apply LastOK_of_revNS hwf0
        rw [flatT_toks]
        exact headNS_pyStrip_rev _
      have hne0 : toks (pyStrip (pySubPunct x)) ≠ [] := by
        intro he
        apply h0
        rw [he]
        show flatT (lowT (collT (hashPass (foldTok wordPairs [])))) = []
        rw [show foldTok wordPairs [] = [] from rfl, hashPass_nil, collT_nil]
        rfl
      have hH1 := HeadOK_tokPipe hH0
      have hL1 := LastOK_tokPipe hne0 hL0
      rw [pyStrip_flatT hwf1 hH1 hL1, toks_flatT hwf1, tokPipe_idem hwf0]

theorem toks_all_word : ∀ {s : Str}, s ≠ [] →
    (∀ c ∈ s, isWordChar c = true) → toks s = [Tok.word s]
  | [], h, _ => absurd rfl h
  | c :: cs, _, hall => by
    conv_lhs => rw [toks]
    rw [if_pos (hall c (List.mem_cons_self c cs))]
    cases cs with
    | nil => rfl
    | cons d cs' =>
      rw [toks_all_word (List.cons_ne_nil d cs')
        (fun e he => hall e (List.mem_cons_of_mem c he))]

/-- C8: abbreviation expansion replaces only whole words.  Any single word
whose lowercase form is none of the abbreviation patterns passes through the
normalizer just lowercased (so a pattern inside a longer word is never
expanded), and concretely `"Main St"` becomes `"main street"`, while
`"Stanley"` and `"STATE"` just lowercase. -/
theorem whole_word_expansion :
    (∀ s : Str, s ≠ [] → (∀ c ∈ s, isWordChar c = true) →
      toLowerL s ∉ wordPairs.map (fun pr => toLowerL pr.1) →
      clean_and_normalize s = toLowerL s)
    ∧ clean_and_normalize "Main St".data = "main street".data
    ∧ clean_and_normalize "Stanley".data = "stanley".data
    ∧ clean_and_normalize "STATE".data = "state".data := by
  refine ⟨?_, by decide, by decide, by decide⟩
  intro s hne hall hnb
  have h1 : pySubPunct s = s :=
    pySubPunct_id (fun c hc => wordChar_ne_comma (hall c hc))
  have h2 : pyStrip s = s :=
    pyStrip_id
      (headNS_of_all (fun c hc => not_ws_of_word (hall c hc)))
      (headNS_of_all (fun c hc =>
        not_ws_of_word (hall c (List.mem_reverse.mp hc))))
  rw [clean_and_normalize_eq_tokPipe s hne, h1, h2, toks_all_word hne hall]
  have hNW : ∀ pr ∈ wordPairs, NoWord pr.1 [Tok.word s] := by
    intro pr hpr w hw heq
    rcases List.mem_cons.mp hw with h3 | h3
    · injection h3 with h4
      apply hnb
      rw [← h4, heq]
      exact List.mem_map_of_mem _ hpr
    · cases h3
  show flatT (lowT (collT (hashPass (foldTok wordPairs [Tok.word s]))))
    = toLowerL s
  rw [foldTok_id_of hNW, hashPass_word_nil, collT_word, collT_nil]
  show toLowerL s ++ [] = toLowerL s
  exact List.append_nil _

theorem whole_word_expansion_witness :
    clean_and_normalize "Stanley".data = toLowerL "Stanley".data :=
  whole_word_expansion.1 "Stanley".data (by decide) (by decide) (by decide)
